import Mathlib

/-!
Verification development for the `packlink` local package cache manager
(`src/index.ts`).  The TypeScript source is shallowly embedded below:

* strings are modelled as `List Char` (`Chars`), so that every operation is
  structurally recursive and kernel-evaluable on concrete inputs;
* JavaScript numbers produced by `Number(...)` on prerelease identifiers are
  modelled by `JSNum` (an exact rational plus the two infinities); `NaN`
  outcomes are modelled by `Option` (`none` = NaN).  Floating-point rounding
  and overflow of astronomically large literals are not modelled: values are
  kept exact.  This difference is unobservable for every claim below;
* fallible operations return `Option`;
* the cache directory is modelled as the list of filenames it contains.
-/

namespace Packlink

/-- Strings are modelled as lists of characters. -/
abbrev Chars := List Char

/-! ## Characters, digits and decimal rendering -/

/-- Numeric value of a decimal digit character. -/
def digitVal (c : Char) : Nat := c.toNat - 48

/-- Value of a string of decimal digits (most significant first), as read by
JavaScript `Number` on an all-digit string. -/
def digitsVal (ds : Chars) : Nat := ds.foldl (fun a c => 10 * a + digitVal c) 0

/-- Fuel-indexed decimal rendering helper (structural recursion on the fuel so
that concrete evaluation goes through the kernel). -/
def natToCharsAux : Nat → Nat → Chars
  | 0, _ => []
  | fuel + 1, n =>
    if n < 10 then [Char.ofNat (48 + n)]
    else natToCharsAux fuel (n / 10) ++ [Char.ofNat (48 + n % 10)]

/-- Decimal rendering of a natural number, the model of JavaScript template
interpolation `${timestamp}` for a non-negative integer. -/
def natToChars (n : Nat) : Chars := natToCharsAux (n + 1) n

/-- The whitespace characters stripped by JavaScript `String.prototype.trim`
and skipped by `parseInt` (ASCII portion plus NBSP and the BOM; further
Unicode space code points never occur in the inputs considered here). -/
def isJsWhitespace (c : Char) : Bool :=
  c = ' ' || c = '\t' || c = '\n' || c = '\r' || c.toNat = 11 || c.toNat = 12 ||
    c.toNat = 160 || c.toNat = 0xFEFF

/-- Model of JavaScript `String.prototype.trim`. -/
def trimJs (cs : Chars) : Chars :=
  ((cs.dropWhile isJsWhitespace).reverse.dropWhile isJsWhitespace).reverse

/-! ## JavaScript numbers (`Number(...)` on prerelease identifiers) -/

/-- A JavaScript number value that can result from `Number(segment)` on a
prerelease segment: an exact rational, or one of the infinities.  (`NaN` is
represented by `Option.none` at use sites.) -/
inductive JSNum where
  | fin : ℚ → JSNum
  | posInf : JSNum
  | negInf : JSNum
deriving DecidableEq

/-- JavaScript unary minus on a number. -/
def JSNum.neg : JSNum → JSNum
  | .fin q => .fin (-q)
  | .posInf => .negInf
  | .negInf => .posInf

/-- Sign of the JavaScript subtraction `a - b` of two distinct numbers, the
only property of that subtraction the source ever consumes (`compareSemVer`
returns it and callers test its sign).  For two equal infinities JavaScript
subtraction yields `NaN`; that case is unreachable in `compareSemVer` because
equal identifiers are skipped by the preceding `===` test, and we return `0`
there for totality. -/
def JSNum.cmpInt : JSNum → JSNum → Int
  | .fin a, .fin b => if a < b then -1 else if b < a then 1 else 0
  | .fin _, .posInf => -1
  | .fin _, .negInf => 1
  | .posInf, .fin _ => 1
  | .posInf, .posInf => 0
  | .posInf, .negInf => 1
  | .negInf, .fin _ => -1
  | .negInf, .posInf => -1
  | .negInf, .negInf => 0

/-- Hexadecimal digit test (for `0x` literals accepted by `Number`). -/
def isHexDigitChar (c : Char) : Bool :=
  c.isDigit || ('a' ≤ c && c ≤ 'f') || ('A' ≤ c && c ≤ 'F')

/-- Value of a hexadecimal digit character. -/
def hexDigitVal (c : Char) : Nat :=
  if c.isDigit then digitVal c
  else if 'a' ≤ c && c ≤ 'f' then c.toNat - 87
  else c.toNat - 55

/-- Value of a hexadecimal digit string. -/
def hexVal (ds : Chars) : Nat := ds.foldl (fun a c => 16 * a + hexDigitVal c) 0

/-- Binary digit test (for `0b` literals). -/
def isBinDigitChar (c : Char) : Bool := c = '0' || c = '1'

/-- Value of a binary digit string. -/
def binVal (ds : Chars) : Nat := ds.foldl (fun a c => 2 * a + digitVal c) 0

/-- Octal digit test (for `0o` literals). -/
def isOctDigitChar (c : Char) : Bool := '0' ≤ c && c ≤ '7'

/-- Value of an octal digit string. -/
def octVal (ds : Chars) : Nat := ds.foldl (fun a c => 8 * a + digitVal c) 0

/-- Exponent part of a decimal literal: the characters after `e`/`E`.  A
non-negative exponent scales the mantissa inside `Nat` (the same exact value
as rational multiplication, but kernel-computable); a negative exponent
divides in `ℚ`. -/
def jsExpTail (mantissa : Nat) (cs : Chars) : Option JSNum :=
  match cs with
  | '-' :: ds =>
    if ds ≠ [] && ds.all Char.isDigit then
      some (.fin ((mantissa : ℚ) / (10 : ℚ) ^ digitsVal ds))
    else none
  | '+' :: ds =>
    if ds ≠ [] && ds.all Char.isDigit then
      some (.fin ((mantissa * 10 ^ digitsVal ds : Nat) : ℚ))
    else none
  | ds =>
    if ds ≠ [] && ds.all Char.isDigit then
      some (.fin ((mantissa * 10 ^ digitsVal ds : Nat) : ℚ))
    else none

/-- Rest of a decimal literal after its leading digit block: either nothing or
an exponent part.  (A decimal point never occurs in a prerelease segment:
segments are produced by splitting on `'.'`.) -/
def jsDecimalTail (mantissa : Nat) : Chars → Option JSNum
  | [] => some (.fin (mantissa : ℚ))
  | 'e' :: rest => jsExpTail mantissa rest
  | 'E' :: rest => jsExpTail mantissa rest
  | _ => none

/-- Decimal numeric literal (digits, optionally followed by an exponent). -/
def jsDecimal (cs : Chars) : Option JSNum :=
  let ds := cs.takeWhile Char.isDigit
  if ds = [] then none else jsDecimalTail (digitsVal ds) (cs.dropWhile Char.isDigit)

/-- Unsigned part of the `Number` string grammar over the prerelease-segment
alphabet `[0-9A-Za-z-]`: `Infinity`, a non-decimal (`0x`/`0b`/`0o`) integer
literal, or a decimal literal. -/
def jsNumUnsigned (cs : Chars) : Option JSNum :=
  if cs = ['I', 'n', 'f', 'i', 'n', 'i', 't', 'y'] then some .posInf
  else
    match cs with
    | '0' :: c :: rest =>
      if c = 'x' || c = 'X' then
        if rest ≠ [] && rest.all isHexDigitChar then some (.fin (hexVal rest)) else none
      else if c = 'b' || c = 'B' then
        if rest ≠ [] && rest.all isBinDigitChar then some (.fin (binVal rest)) else none
      else if c = 'o' || c = 'O' then
        if rest ≠ [] && rest.all isOctDigitChar then some (.fin (octVal rest)) else none
      else jsDecimal ('0' :: c :: rest)
    | _ => jsDecimal cs

/-- A signed literal may only be `Infinity` or a decimal literal (the sign
productions of the string-numeric grammar exclude `0x`/`0b`/`0o` literals,
so `Number("-0x10")` is `NaN`). -/
def jsSignable (cs : Chars) : Option JSNum :=
  if cs = ['I', 'n', 'f', 'i', 'n', 'i', 't', 'y'] then some .posInf
  else jsDecimal cs

/-- Model of JavaScript `Number(segment)` for a prerelease segment (`none`
models `NaN`).  Segments contain neither whitespace nor a decimal point, so
the corresponding productions of the string-numeric grammar are omitted.
`Number("")` is `0`; empty segments are filtered out before conversion in
`parsePrerelease`, mirroring the source. -/
def jsNumber (cs : Chars) : Option JSNum :=
  match cs with
  | [] => some (.fin 0)
  | c :: rest =>
    if c = '-' then (jsSignable rest).map JSNum.neg
    else if c = '+' then jsSignable rest
    else jsNumUnsigned (c :: rest)

/-! ## SemVer model (`parseSemVer`, `parsePrerelease`, `compareSemVer`) -/

/-- A prerelease identifier: stored as a number when `Number(segment)` is not
`NaN`, otherwise as the original string (source `parsePrerelease`). -/
inductive PreId where
  | num : JSNum → PreId
  | str : Chars → PreId
deriving DecidableEq

/-- Source interface `SemVer`. -/
structure SemVer where
  major : Nat
  minor : Nat
  patch : Nat
  prerelease : List PreId
deriving DecidableEq

/-- JavaScript `split` on a single separator character. -/
def splitOnChar (sep : Char) : Chars → List Chars
  | [] => [[]]
  | c :: rest =>
    if c = sep then [] :: splitOnChar sep rest
    else
      match splitOnChar sep rest with
      | [] => [[c]]
      | s :: ss => (c :: s) :: ss

/-- Conversion of one prerelease segment (source: `Number.isNaN(numeric) ?
segment : numeric`). -/
def preIdOfSegment (seg : Chars) : PreId :=
  match jsNumber seg with
  | some q => .num q
  | none => .str seg

/-- Source `parsePrerelease`: split on `'.'`, drop empty segments, convert
each segment. -/
def parsePrerelease (cs : Chars) : List PreId :=
  ((splitOnChar '.' cs).filter fun seg => seg.length > 0).map preIdOfSegment

/-- Allowed prerelease characters, the regex class `[0-9A-Za-z-.]`. -/
def isPreChar (c : Char) : Bool :=
  c.isDigit || ('A' ≤ c && c ≤ 'Z') || ('a' ≤ c && c ≤ 'z') || c = '-' || c = '.'

/-- One optional `.` + digits group of the version regex
(`(?:\.(?<minor>\d+))?`): returns the parsed value (if the group matches at
the current position) and the remaining input. -/
def takeDotNum (cs : Chars) : Option Nat × Chars :=
  match cs with
  | [] => (none, [])
  | c :: r =>
    if c = '.' then
      let ds := r.takeWhile Char.isDigit
      if ds = [] then (none, c :: r) else (some (digitsVal ds), r.dropWhile Char.isDigit)
    else (none, c :: r)

/-- The optional leading `v` of the version regex. -/
def dropLeadingV (cs : Chars) : Chars :=
  match cs with
  | [] => []
  | c :: rest => if c = 'v' then rest else c :: rest

/-- The groups after the major component: the two optional `.`-digit groups
followed by the optional `-`-prerelease group, which must consume the rest of
the input (the regex is anchored by `$`). -/
def parseAfterMajor (major : Nat) (r1 : Chars) : Option SemVer :=
  let p1 := takeDotNum r1
  let p2 := takeDotNum p1.2
  match p2.2 with
  | [] => some ⟨major, (p1.1).getD 0, (p2.1).getD 0, []⟩
  | c :: pre =>
    if c = '-' then
      if pre ≠ [] && pre.all isPreChar then
        some ⟨major, (p1.1).getD 0, (p2.1).getD 0, parsePrerelease pre⟩
      else none
    else none

/-- Source `parseSemVer`: trim, then match
`/^v?(?<major>\d+)(?:\.(?<minor>\d+))?(?:\.(?<patch>\d+))?(?:-(?<prerelease>[0-9A-Za-z-.]+))?$/`.
The regex is deterministic (each optional group is anchored by a distinct
leading character and backtracking cannot rescue a failed match), so it is
implemented as a sequential greedy parser. -/
def parseSemVerChars (input : Chars) : Option SemVer :=
  let body := dropLeadingV (trimJs input)
  let ds := body.takeWhile Char.isDigit
  if ds = [] then none
  else parseAfterMajor (digitsVal ds) (body.dropWhile Char.isDigit)

/-- `parseSemVer` on a Lean string. -/
def parseSemVer (s : String) : Option SemVer := parseSemVerChars s.data

/-- Model of `String.prototype.localeCompare` as used on prerelease
identifiers.  `localeCompare` with no locale argument is environment
dependent; on the identifiers that occur here (ASCII, in practice lowercase
alphanumerics) every common collation agrees with code-unit order, which is
the model used. -/
def localeCompare : Chars → Chars → Int
  | [], [] => 0
  | [], _ :: _ => -1
  | _ :: _, [] => 1
  | a :: as, b :: bs =>
    if a = b then localeCompare as bs
    else if a < b then -1 else 1

/-- Comparison of two distinct prerelease identifiers (the body of the loop in
`compareSemVer` after the `===` test): numbers compare numerically, a number
is less than a string, strings compare via `localeCompare`. -/
def comparePreId : PreId → PreId → Int
  | .num a, .num b => JSNum.cmpInt a b
  | .num _, .str _ => -1
  | .str _, .num _ => 1
  | .str a, .str b => localeCompare a b

/-- The index loop of `compareSemVer` over the two prerelease sequences: a
run-out sequence (`undefined` identifier) is smaller; equal identifiers are
skipped. -/
def comparePreIds : List PreId → List PreId → Int
  | [], [] => 0
  | [], _ :: _ => -1
  | _ :: _, [] => 1
  | a :: as, b :: bs => if a = b then comparePreIds as bs else comparePreId a b

/-- The prerelease block of `compareSemVer` (source lines 88-111): no
prerelease beats any prerelease; two prerelease sequences go through the index
loop. -/
def comparePreTop : List PreId → List PreId → Int
  | [], [] => 0
  | [], _ :: _ => 1
  | _ :: _, [] => -1
  | x :: xs, y :: ys => comparePreIds (x :: xs) (y :: ys)

/-- Source `compareSemVer`.  Numeric results are kept exact where they are
integers (`major`/`minor`/`patch` differences); for prerelease identifier
comparisons only the sign is returned (see `JSNum.cmpInt`, `localeCompare`). -/
def compareSemVer (a b : SemVer) : Int :=
  if a.major ≠ b.major then (a.major : Int) - b.major
  else if a.minor ≠ b.minor then (a.minor : Int) - b.minor
  else if a.patch ≠ b.patch then (a.patch : Int) - b.patch
  else comparePreTop a.prerelease b.prerelease

/-- Comparison of two version literals after parsing both (`none` when either
fails to parse); used to state chain facts concisely. -/
def cmpTexts (a b : String) : Option Int :=
  match parseSemVer a, parseSemVer b with
  | some x, some y => some (compareSemVer x y)
  | _, _ => none

/-! ## Artifact naming scheme and decoding (`getSafePackageName`, `add`) -/

/-- Source `getSafePackageName`: `@scope/name` becomes `scope-name`, other
names pass through. -/
def getSafePackageNameChars : Chars → Chars
  | '@' :: rest => rest.map fun c => if c = '/' then '-' else c
  | cs => cs

/-- The `.tgz` extension. -/
def tgzExt : Chars := ['.', 't', 'g', 'z']

/-- The stamped cache filename `${safe}-${version}-${timestamp}.tgz` built in
`publish`. -/
def encodeChars (safe ver : Chars) (ts : Nat) : Chars :=
  safe ++ '-' :: ver ++ '-' :: natToChars ts ++ tgzExt

/-- The fixed, timestamp-free tarball name `${safe}-${version}.tgz` produced
by `pnpm pack`. -/
def originalTarballName (safe ver : Chars) : Chars :=
  safe ++ '-' :: ver ++ tgzExt

/-- The deletion filter key `${safe}-${version}-` used by `publish` to
supersede same-version artifacts. -/
def supersedeKey (safe ver : Chars) : Chars :=
  safe ++ '-' :: ver ++ ['-']

/-- Decoded tarball metadata (source `TarballMetadata`); `timestamp = none`
models the `NaN` produced by `parseInt` on a non-numeric segment. -/
structure TarballMetadata where
  file : Chars
  version : SemVer
  timestamp : Option Int
deriving DecidableEq

/-- Split a string at its last hyphen (source: `lastIndexOf('-')` followed by
two `substring`s); `none` when there is no hyphen. -/
def splitLastHyphen : Chars → Option (Chars × Chars)
  | [] => none
  | c :: rest =>
    match splitLastHyphen rest with
    | some (l, r) => some (c :: l, r)
    | none => if c = '-' then some ([], rest) else none

/-- Longest leading digit block for `parseInt` (radix 10); `none` when there
is no leading digit (`parseInt` returns `NaN`). -/
def jsParseIntDigits (cs : Chars) : Option Nat :=
  let ds := cs.takeWhile Char.isDigit
  if ds = [] then none else some (digitsVal ds)

/-- Model of JavaScript `parseInt(s, 10)`: skip leading whitespace, optional
sign, then the longest digit block; `none` models `NaN`. -/
def jsParseInt (cs : Chars) : Option Int :=
  match cs.dropWhile isJsWhitespace with
  | [] => none
  | c :: rest =>
    if c = '-' then (jsParseIntDigits rest).map fun n => -(n : Int)
    else if c = '+' then (jsParseIntDigits rest).map fun n => (n : Int)
    else (jsParseIntDigits (c :: rest)).map fun n => (n : Int)

/-- The body of the `map` in `add` (source lines 250-270): strip the `.tgz`
extension, strip `${safe}-`, split at the last hyphen, parse the version,
`parseInt` the timestamp. -/
def decodeTarballEntry (safe file : Chars) : Option TarballMetadata :=
  let nameWithoutExt := file.take (file.length - 4)
  let inner := nameWithoutExt.drop (safe.length + 1)
  match splitLastHyphen inner with
  | none => none
  | some (versionString, timestampString) =>
    match parseSemVerChars versionString with
    | none => none
    | some v => some ⟨file, v, jsParseInt timestampString⟩

/-- The candidate filter of `add` (source lines 240-242): filename starts with
`${safe}-` and ends with `.tgz`. -/
def listTarballFilter (safe file : Chars) : Bool :=
  (safe ++ ['-']).isPrefixOf file && tgzExt.isSuffixOf file

/-- Decoding of one directory entry: the filter composed with the decode step
(an entry rejected by either yields `none`). -/
def decodeFile (safe file : Chars) : Option TarballMetadata :=
  if listTarballFilter safe file then decodeTarballEntry safe file else none

/-- The decodable candidates among a directory listing (source: `filter`
followed by `map`/`filter(≠ null)`). -/
def tarballsOf (files : List Chars) (safe : Chars) : List TarballMetadata :=
  (files.filter (listTarballFilter safe)).filterMap (decodeTarballEntry safe)

/-! ## Resolver (`add`'s sort and selection) -/

/-- The sort comparator of `add` (source lines 279-283): SemVer first, then
timestamp difference.  When either timestamp is `NaN` the JavaScript
subtraction yields `NaN`, which `Array.prototype.sort` treats as `+0`
(ES2023 §23.1.3.30.2 SortCompare); hence the `0` in the wildcard case. -/
def tarballCompare (a b : TarballMetadata) : Int :=
  let verDiff := compareSemVer a.version b.version
  if verDiff ≠ 0 then verDiff
  else
    match a.timestamp, b.timestamp with
    | some x, some y => x - y
    | _, _ => 0

/-- The non-strict order induced by the comparator. -/
def tarballLE (a b : TarballMetadata) : Prop := tarballCompare a b ≤ 0

instance : DecidableRel tarballLE :=
  fun a b => inferInstanceAs (Decidable (tarballCompare a b ≤ 0))

/-- The resolver (source `add`, lines 240-285): list, decode, sort ascending,
take the last element.  `none` models the two `NotFound` process exits (no
matching filename / no decodable candidate).  `Array.prototype.sort` is
required to be stable and is modelled by the stable `insertionSort`. -/
def resolveLatest (files : List Chars) (rawName : Chars) : Option TarballMetadata :=
  let safe := getSafePackageNameChars rawName
  let tarballs := tarballsOf files safe
  (List.insertionSort tarballLE tarballs).getLast?

/-! ## Publish operation (cache-state model) -/

/-- `pnpm pack --pack-destination` deposits the fixed-name tarball
`${safe}-${version}.tgz` in the cache (overwriting any previous file of that
name); the subsequent `existsSync` check passes.  A real directory holds at
most one entry per name, so overwriting is modelled by filtering the name out
before prepending it. -/
def publishPack (cache : List Chars) (safe ver : Chars) : List Chars :=
  originalTarballName safe ver :: cache.filter fun f => f ≠ originalTarballName safe ver

/-- The supersede step (source lines 188-194): delete every file whose name
starts with `${safe}-${version}-`. -/
def publishDelete (cache : List Chars) (safe ver : Chars) : List Chars :=
  cache.filter fun f => !(supersedeKey safe ver).isPrefixOf f

/-- The stamp step (source lines 196-200): rename the fixed-name tarball to
`${safe}-${version}-${timestamp}.tgz` (the source name disappears, the target
name appears). -/
def publishRename (cache : List Chars) (safe ver : Chars) (ts : Nat) : List Chars :=
  (cache.filter fun f => f ≠ originalTarballName safe ver) ++ [encodeChars safe ver ts]

/-- One whole `publish` run over the cache state, at clock reading `ts`
(`Date.now()`): pack, supersede, stamp. -/
def publishRun (cache : List Chars) (safe ver : Chars) (ts : Nat) : List Chars :=
  publishRename (publishDelete (publishPack cache safe ver) safe ver) safe ver ts

/-! ## Watch / debounce loop -/

/-- The debounce quiet period of `watchPublish` / `watchAdd` (milliseconds). -/
def debounceWindow : Nat := 200

/-- Event-loop model of the debounce logic (source lines 218-226): each event
at time `t` cancels any pending timer and schedules the governed action at
`t + w`; the action runs when no later event arrives strictly before that
deadline.  The input is the chronological list of event times, the output the
list of action times. -/
def debounceActions (w : Nat) : List Nat → List Nat
  | [] => []
  | [t] => [t + w]
  | t :: t' :: rest =>
    if t + w ≤ t' then (t + w) :: debounceActions w (t' :: rest)
    else debounceActions w (t' :: rest)

/-! ## Spec-side grammar (refinement counterpart for the parser claims) -/

/-- One optional `.`-digits group, following the spec's words: absent, or a
dot followed by one or more digits. -/
def dotNumChunk (cs : Chars) : Prop :=
  cs = [] ∨ ∃ ds, cs = '.' :: ds ∧ ds ≠ [] ∧ ds.all Char.isDigit

/-- The optional prerelease chunk, following the spec's words: absent, or a
hyphen followed by one or more characters of the class `[0-9A-Za-z-.]`. -/
def preChunk (cs : Chars) : Prop :=
  cs = [] ∨ ∃ p, cs = '-' :: p ∧ p ≠ [] ∧ p.all isPreChar

/-- The accepted version grammar, following the spec's words ("an optional
leading v, at least a major component of one or more digits, optional minor
and patch, an optional `-` followed by dot-separated prerelease
identifiers").  The decomposition is canonicalised by requiring the patch
group to be absent whenever the minor group is (the two describe the same set
of strings). -/
def semVerGrammar (cs : Chars) : Prop :=
  ∃ vtag maj d1 d2 pre : Chars,
    (vtag = [] ∨ vtag = ['v']) ∧ maj ≠ [] ∧ maj.all Char.isDigit ∧
    dotNumChunk d1 ∧ dotNumChunk d2 ∧ (d1 = [] → d2 = []) ∧ preChunk pre ∧
    cs = vtag ++ (maj ++ (d1 ++ (d2 ++ pre)))

/-! ## Character and digit lemmas -/

theorem digitChar_spec (m : Nat) (hm : m < 10) :
    (Char.ofNat (48 + m)).isDigit = true ∧ digitVal (Char.ofNat (48 + m)) = m := by
  have h : m = 0 ∨ m = 1 ∨ m = 2 ∨ m = 3 ∨ m = 4 ∨ m = 5 ∨ m = 6 ∨ m = 7 ∨ m = 8 ∨ m = 9 := by
    omega
  rcases h with rfl | rfl | rfl | rfl | rfl | rfl | rfl | rfl | rfl | rfl <;> exact ⟨rfl, rfl⟩

theorem digit_char_facts {c : Char} (h : c.isDigit = true) :
    isJsWhitespace c = false ∧ c ≠ '-' ∧ c ≠ '+' ∧ c ≠ '.' ∧ c ≠ 'v' := by
  simp only [Char.isDigit, decide_eq_true_eq, Bool.and_eq_true] at h
  have h48 : 48 ≤ c.toNat := h.1
  have h57 : c.toNat ≤ 57 := h.2
  refine ⟨?_, ?_, ?_, ?_, ?_⟩
  · simp only [isJsWhitespace, Bool.or_eq_false_iff, decide_eq_false_iff_not]
    refine ⟨⟨⟨⟨⟨⟨⟨?_, ?_⟩, ?_⟩, ?_⟩, ?_⟩, ?_⟩, ?_⟩, ?_⟩ <;>
      first
        | (intro hc; subst hc; revert h48 h57; decide)
        | (intro hc; omega)
  · intro hc; subst hc; revert h48 h57; decide
  · intro hc; subst hc; revert h48 h57; decide
  · intro hc; subst hc; revert h48 h57; decide
  · intro hc; subst hc; revert h48 h57; decide

theorem digitsVal_append_singleton (xs : Chars) (c : Char) :
    digitsVal (xs ++ [c]) = 10 * digitsVal xs + digitVal c := by
  simp [digitsVal, List.foldl_append]

theorem natToCharsAux_spec :
    ∀ fuel n, n < fuel →
      natToCharsAux fuel n ≠ [] ∧ digitsVal (natToCharsAux fuel n) = n ∧
        ∀ c ∈ natToCharsAux fuel n, c.isDigit = true := by
  intro fuel
  induction fuel with
  | zero => intro n h; omega
  | succ fuel ih =>
    intro n h
    by_cases h10 : n < 10
    · obtain ⟨hdig, hval⟩ := digitChar_spec n h10
      refine ⟨by simp [natToCharsAux, h10], ?_, ?_⟩
      · simp [natToCharsAux, h10, digitsVal, digitVal] at hval ⊢
        omega
      · intro c hc
        simp [natToCharsAux, h10] at hc
        subst hc
        exact hdig
    · have hlt : n / 10 < fuel := by omega
      obtain ⟨hne, hval, hdig⟩ := ih (n / 10) hlt
      obtain ⟨hdig2, hval2⟩ := digitChar_spec (n % 10) (by omega)
      refine ⟨by simp [natToCharsAux, h10], ?_, ?_⟩
      · simp only [natToCharsAux, if_neg h10]
        rw [digitsVal_append_singleton, hval, hval2]
        omega
      · intro c hc
        simp only [natToCharsAux, if_neg h10, List.mem_append, List.mem_singleton] at hc
        rcases hc with hc | rfl
        · exact hdig c hc
        · exact hdig2

theorem natToChars_spec (n : Nat) :
    natToChars n ≠ [] ∧ digitsVal (natToChars n) = n ∧
      ∀ c ∈ natToChars n, c.isDigit = true :=
  natToCharsAux_spec (n + 1) n (Nat.lt_succ_self n)

/-! ## takeWhile and dropWhile helpers -/

theorem takeWhile_all {p : Char → Bool} :
    ∀ {cs : Chars}, (∀ c ∈ cs, p c = true) → cs.takeWhile p = cs
  | [], _ => rfl
  | c :: rest, h => by
    simp [List.takeWhile_cons, h c (List.mem_cons_self c rest),
      takeWhile_all fun d hd => h d (List.mem_cons_of_mem c hd)]

theorem dropWhile_all {p : Char → Bool} :
    ∀ {cs : Chars}, (∀ c ∈ cs, p c = true) → cs.dropWhile p = []
  | [], _ => rfl
  | c :: rest, h => by
    simp [List.dropWhile_cons, h c (List.mem_cons_self c rest),
      dropWhile_all fun d hd => h d (List.mem_cons_of_mem c hd)]

theorem takeWhile_append_all {p : Char → Bool} {xs ys : Chars}
    (hx : ∀ c ∈ xs, p c = true) (hy : ∀ c, ys.head? = some c → p c = false) :
    (xs ++ ys).takeWhile p = xs ∧ (xs ++ ys).dropWhile p = ys := by
  induction xs with
  | nil =>
    cases ys with
    | nil => exact ⟨rfl, rfl⟩
    | cons y ys' =>
      have := hy y rfl
      simp [List.takeWhile_cons, List.dropWhile_cons, this]
  | cons x xs' ih =>
    have hx1 : p x = true := hx x (List.mem_cons_self x xs')
    obtain ⟨h1, h2⟩ := ih fun d hd => hx d (List.mem_cons_of_mem x hd)
    simp [List.takeWhile_cons, List.dropWhile_cons, hx1, h1, h2]

/-! ## jsParseInt on rendered timestamps -/

theorem jsParseIntDigits_all {cs : Chars} (hne : cs ≠ [])
    (hdig : ∀ c ∈ cs, c.isDigit = true) :
    jsParseIntDigits cs = some (digitsVal cs) := by
  simp [jsParseIntDigits, takeWhile_all hdig, hne]

theorem jsParseInt_natToChars (t : Nat) : jsParseInt (natToChars t) = some (t : Int) := by
  obtain ⟨hne, hval, hdig⟩ := natToChars_spec t
  cases hcs : natToChars t with
  | nil => exact absurd hcs hne
  | cons c rest =>
    have hc : c.isDigit = true := hdig c (by rw [hcs]; exact List.mem_cons_self c rest)
    obtain ⟨hws, hminus, hplus, _, _⟩ := digit_char_facts hc
    rw [hcs] at hval hdig
    simp only [jsParseInt, List.dropWhile_cons, hws, Bool.false_eq_true, if_false,
      if_neg hminus, if_neg hplus]
    rw [jsParseIntDigits_all (by simp) hdig, hval]
    rfl

/-! ## splitLastHyphen -/

theorem splitLastHyphen_eq_none {cs : Chars} (h : '-' ∉ cs) : splitLastHyphen cs = none := by
  induction cs with
  | nil => rfl
  | cons c rest ih =>
    have hc : c ≠ '-' := fun hc => h (hc ▸ List.mem_cons_self c rest)
    have : splitLastHyphen rest = none := ih fun hm => h (List.mem_cons_of_mem c hm)
    simp [splitLastHyphen, this, hc]

theorem splitLastHyphen_append {ts : Chars} (v : Chars) (h : '-' ∉ ts) :
    splitLastHyphen (v ++ '-' :: ts) = some (v, ts) := by
  induction v with
  | nil => simp [splitLastHyphen, splitLastHyphen_eq_none h]
  | cons c cv ih => simp [splitLastHyphen, ih]

/-! ## Order lemmas for the comparator -/

theorem neg_one_lt_pick {p : Prop} [Decidable p]
    (h : (if p then (-1 : Int) else 1) < 0) : p := by
  by_cases hp : p
  · exact hp
  · rw [if_neg hp] at h; omega

theorem ite_cmp_lt {x y : ℚ} (h : (if x < y then (-1 : Int) else if y < x then 1 else 0) < 0) :
    x < y := by
  by_cases hxy : x < y
  · exact hxy
  · rw [if_neg hxy] at h
    split at h <;> omega

theorem ite_cmp_of_lt {x y : ℚ} (h : x < y) :
    (if x < y then (-1 : Int) else if y < x then 1 else 0) < 0 := by
  rw [if_pos h]; omega

theorem localeCompare_self : ∀ cs : Chars, localeCompare cs cs = 0
  | [] => rfl
  | c :: rest => by simp [localeCompare, localeCompare_self rest]

theorem localeCompare_eq_zero : ∀ {a b : Chars}, localeCompare a b = 0 → a = b
  | [], [], _ => rfl
  | [], b :: bs, h => by simp [localeCompare] at h
  | a :: as, [], h => by simp [localeCompare] at h
  | a :: as, b :: bs, h => by
    by_cases hab : a = b
    · subst hab
      simp only [localeCompare, if_pos rfl] at h
      rw [localeCompare_eq_zero h]
    · simp only [localeCompare, if_neg hab] at h
      split at h <;> simp at h

theorem localeCompare_antisym : ∀ a b : Chars, localeCompare a b = -localeCompare b a
  | [], [] => rfl
  | [], _ :: _ => rfl
  | _ :: _, [] => rfl
  | a :: as, b :: bs => by
    by_cases hab : a = b
    · subst hab
      simp only [localeCompare, if_pos rfl]
      exact localeCompare_antisym as bs
    · have hba : ¬b = a := fun h => hab h.symm
      simp only [localeCompare, if_neg hab, if_neg hba]
      rcases lt_trichotomy a b with h | h | h
      · rw [if_pos h, if_neg (lt_asymm h)]
        try omega
      · exact absurd h hab
      · rw [if_neg (lt_asymm h), if_pos h]
        try omega

theorem localeCompare_trans_neg :
    ∀ {a b c : Chars}, localeCompare a b < 0 → localeCompare b c < 0 → localeCompare a c < 0
  | [], [], _, h1, _ => by simp [localeCompare] at h1
  | [], b :: bs, [], _, h2 => by simp [localeCompare] at h2
  | [], b :: bs, c :: cs, _, _ => by simp [localeCompare]
  | a :: as, [], _, h1, _ => by simp [localeCompare] at h1
  | a :: as, b :: bs, [], _, h2 => by simp [localeCompare] at h2
  | a :: as, b :: bs, c :: cs, h1, h2 => by
    by_cases hab : a = b <;> by_cases hbc : b = c
    · subst hab; subst hbc
      simp only [localeCompare, if_pos rfl] at h1 h2 ⊢
      exact localeCompare_trans_neg h1 h2
    · subst hab
      simp only [localeCompare, if_pos rfl, if_neg hbc] at h2 ⊢
      exact h2
    · subst hbc
      simp only [localeCompare, if_neg hab] at h1 ⊢
      exact h1
    · simp only [localeCompare, if_neg hab, if_neg hbc] at h1 h2
      have h1' : a < b := neg_one_lt_pick h1
      have h2' : b < c := neg_one_lt_pick h2
      have hac : a < c := lt_trans h1' h2'
      simp only [localeCompare, if_neg (ne_of_lt hac), if_pos hac]
      omega

theorem cmpInt_eq_zero : ∀ {a b : JSNum}, JSNum.cmpInt a b = 0 → a = b := by
  intro a b h
  rcases a with x | _ | _ <;> rcases b with y | _ | _ <;>
    first
      | rfl
      | (simp [JSNum.cmpInt] at h
         done)
      | (simp only [JSNum.cmpInt] at h
         split_ifs at h with h1 h2
         · exact absurd h (by decide)
         · exact congrArg JSNum.fin (le_antisymm (not_lt.mp h2) (not_lt.mp h1)))

theorem cmpInt_antisym : ∀ a b : JSNum, JSNum.cmpInt a b = -JSNum.cmpInt b a := by
  intro a b
  rcases a with x | _ | _ <;> rcases b with y | _ | _ <;> simp only [JSNum.cmpInt] <;> try omega
  rcases lt_trichotomy x y with h | h | h
  · rw [if_pos h, if_neg (lt_asymm h), if_pos h]
    try omega
  · subst h
    simp [lt_irrefl]
  · rw [if_neg (lt_asymm h), if_neg (lt_asymm h), if_pos h, if_pos h]
    try omega

theorem cmpInt_trans_neg :
    ∀ {a b c : JSNum}, JSNum.cmpInt a b < 0 → JSNum.cmpInt b c < 0 → JSNum.cmpInt a c < 0 := by
  intro a b c h1 h2
  rcases a with x | _ | _ <;> rcases b with y | _ | _ <;> rcases c with z | _ | _ <;>
    simp only [JSNum.cmpInt] at h1 h2 ⊢ <;>
    first
      | omega
      | exact absurd h1 (by decide)
      | exact absurd h2 (by decide)
      | exact ite_cmp_of_lt (lt_trans (ite_cmp_lt h1) (ite_cmp_lt h2))

theorem comparePreId_eq_zero : ∀ {a b : PreId}, comparePreId a b = 0 → a = b := by
  intro a b h
  rcases a with q1 | s1 <;> rcases b with q2 | s2 <;> simp only [comparePreId] at h
  · exact congrArg PreId.num (cmpInt_eq_zero h)
  · exact absurd h (by decide)
  · exact absurd h (by decide)
  · exact congrArg PreId.str (localeCompare_eq_zero h)

theorem comparePreId_antisym : ∀ a b : PreId, comparePreId a b = -comparePreId b a := by
  intro a b
  rcases a with q1 | s1 <;> rcases b with q2 | s2 <;> simp only [comparePreId] <;>
    first
      | omega
      | exact cmpInt_antisym q1 q2
      | exact localeCompare_antisym s1 s2

theorem comparePreId_trans_neg :
    ∀ {a b c : PreId}, comparePreId a b < 0 → comparePreId b c < 0 → comparePreId a c < 0 := by
  intro a b c h1 h2
  rcases a with q1 | s1 <;> rcases b with q2 | s2 <;> rcases c with q3 | s3 <;>
    simp only [comparePreId] at h1 h2 ⊢ <;>
    first
      | omega
      | exact absurd h1 (by decide)
      | exact absurd h2 (by decide)
      | exact cmpInt_trans_neg h1 h2
      | exact localeCompare_trans_neg h1 h2

theorem comparePreIds_self : ∀ l : List PreId, comparePreIds l l = 0
  | [] => rfl
  | x :: xs => by simp [comparePreIds, comparePreIds_self xs]

theorem comparePreIds_eq_zero : ∀ {l1 l2 : List PreId}, comparePreIds l1 l2 = 0 → l1 = l2
  | [], [], _ => rfl
  | [], y :: ys, h => by simp [comparePreIds] at h
  | x :: xs, [], h => by simp [comparePreIds] at h
  | x :: xs, y :: ys, h => by
    by_cases hxy : x = y
    · subst hxy
      simp only [comparePreIds, if_pos rfl] at h
      rw [comparePreIds_eq_zero h]
    · simp only [comparePreIds, if_neg hxy] at h
      exact absurd (comparePreId_eq_zero h) hxy

theorem comparePreIds_antisym : ∀ l1 l2 : List PreId, comparePreIds l1 l2 = -comparePreIds l2 l1
  | [], [] => rfl
  | [], _ :: _ => by simp [comparePreIds]
  | _ :: _, [] => by simp [comparePreIds]
  | x :: xs, y :: ys => by
    by_cases hxy : x = y
    · subst hxy
      simp only [comparePreIds, if_pos rfl]
      exact comparePreIds_antisym xs ys
    · have hyx : ¬y = x := fun h => hxy h.symm
      simp only [comparePreIds, if_neg hxy, if_neg hyx]
      exact comparePreId_antisym x y

theorem comparePreIds_trans_neg :
    ∀ {l1 l2 l3 : List PreId},
      comparePreIds l1 l2 < 0 → comparePreIds l2 l3 < 0 → comparePreIds l1 l3 < 0
  | [], [], _, h1, _ => by simp [comparePreIds] at h1
  | [], y :: ys, [], _, h2 => by simp [comparePreIds] at h2
  | [], y :: ys, z :: zs, _, _ => by simp [comparePreIds]
  | x :: xs, [], _, h1, _ => by simp [comparePreIds] at h1
  | x :: xs, y :: ys, [], _, h2 => by simp [comparePreIds] at h2
  | x :: xs, y :: ys, z :: zs, h1, h2 => by
    by_cases hxy : x = y <;> by_cases hyz : y = z
    · subst hxy; subst hyz
      simp only [comparePreIds, if_pos rfl] at h1 h2 ⊢
      exact comparePreIds_trans_neg h1 h2
    · subst hxy
      simp only [comparePreIds, if_pos rfl, if_neg hyz] at h2 ⊢
      exact h2
    · subst hyz
      simp only [comparePreIds, if_neg hxy] at h1 ⊢
      exact h1
    · simp only [comparePreIds, if_neg hxy, if_neg hyz] at h1 h2
      have hxz : comparePreId x z < 0 := comparePreId_trans_neg h1 h2
      have hne : x ≠ z := by
        intro heq
        subst heq
        have := comparePreId_antisym x y
        omega
      simp only [comparePreIds, if_neg hne]
      exact hxz

theorem comparePreTop_self : ∀ l : List PreId, comparePreTop l l = 0
  | [] => rfl
  | x :: xs => by simp [comparePreTop, comparePreIds_self]

theorem comparePreTop_eq_zero : ∀ {l1 l2 : List PreId}, comparePreTop l1 l2 = 0 → l1 = l2
  | [], [], _ => rfl
  | [], y :: ys, h => by simp [comparePreTop] at h
  | x :: xs, [], h => by simp [comparePreTop] at h
  | _ :: _, _ :: _, h => comparePreIds_eq_zero h

theorem comparePreTop_antisym : ∀ l1 l2 : List PreId, comparePreTop l1 l2 = -comparePreTop l2 l1
  | [], [] => rfl
  | [], _ :: _ => by simp [comparePreTop]
  | _ :: _, [] => by simp [comparePreTop]
  | _ :: _, _ :: _ => comparePreIds_antisym _ _

theorem comparePreTop_trans_neg :
    ∀ {l1 l2 l3 : List PreId},
      comparePreTop l1 l2 < 0 → comparePreTop l2 l3 < 0 → comparePreTop l1 l3 < 0
  | [], [], _, h1, _ => by simp [comparePreTop] at h1
  | [], y :: ys, _, h1, _ => by simp [comparePreTop] at h1
  | x :: xs, [], [], _, h2 => by simp [comparePreTop] at h2
  | x :: xs, [], z :: zs, _, h2 => by simp [comparePreTop] at h2
  | x :: xs, y :: ys, [], _, _ => by simp [comparePreTop, comparePreIds]
  | _ :: _, _ :: _, _ :: _, h1, h2 => comparePreIds_trans_neg h1 h2

theorem compareSemVer_neg_iff (a b : SemVer) :
    compareSemVer a b < 0 ↔
      (a.major < b.major ∨ (a.major = b.major ∧ (a.minor < b.minor ∨ (a.minor = b.minor ∧
        (a.patch < b.patch ∨ (a.patch = b.patch ∧
          comparePreTop a.prerelease b.prerelease < 0)))))) := by
  unfold compareSemVer
  split_ifs with h1 h2 h3
  · constructor
    · intro h; left; omega
    · rintro (h | ⟨he, -⟩)
      · omega
      · exact absurd he h1
  · have e1 := not_ne_iff.mp h1
    constructor
    · intro h; exact Or.inr ⟨e1, Or.inl (by omega)⟩
    · rintro (h | ⟨-, h | ⟨he, -⟩⟩)
      · omega
      · omega
      · exact absurd he h2
  · have e1 := not_ne_iff.mp h1
    have e2 := not_ne_iff.mp h2
    constructor
    · intro h; exact Or.inr ⟨e1, Or.inr ⟨e2, Or.inl (by omega)⟩⟩
    · rintro (h | ⟨-, h | ⟨-, h | ⟨he, -⟩⟩⟩)
      · omega
      · omega
      · omega
      · exact absurd he h3
  · have e1 := not_ne_iff.mp h1
    have e2 := not_ne_iff.mp h2
    have e3 := not_ne_iff.mp h3
    constructor
    · intro h; exact Or.inr ⟨e1, Or.inr ⟨e2, Or.inr ⟨e3, h⟩⟩⟩
    · rintro (h | ⟨-, h | ⟨-, h | ⟨-, h⟩⟩⟩)
      · omega
      · omega
      · omega
      · exact h

theorem compareSemVer_self (a : SemVer) : compareSemVer a a = 0 := by
  simp [compareSemVer, comparePreTop_self]

theorem compareSemVer_eq_zero {a b : SemVer} (h : compareSemVer a b = 0) : a = b := by
  unfold compareSemVer at h
  split_ifs at h with h1 h2 h3
  · exact absurd (by omega : a.major = b.major) h1
  · exact absurd (by omega : a.minor = b.minor) h2
  · exact absurd (by omega : a.patch = b.patch) h3
  · have e1 := not_ne_iff.mp h1
    have e2 := not_ne_iff.mp h2
    have e3 := not_ne_iff.mp h3
    have e4 := comparePreTop_eq_zero h
    cases a
    cases b
    simp_all

theorem compareSemVer_antisym (a b : SemVer) : compareSemVer a b = -compareSemVer b a := by
  unfold compareSemVer
  by_cases h1 : a.major = b.major
  · by_cases h2 : a.minor = b.minor
    · by_cases h3 : a.patch = b.patch
      · rw [h1, h2, h3]
        simp [comparePreTop_antisym a.prerelease b.prerelease]
      · have h3' : ¬b.patch = a.patch := fun h => h3 h.symm
        rw [h1, h2]
        simp only [ne_eq, not_true_eq_false, if_false, h3, h3', not_false_eq_true, if_true]
        omega
    · have h2' : ¬b.minor = a.minor := fun h => h2 h.symm
      rw [h1]
      simp only [ne_eq, not_true_eq_false, if_false, h2, h2', not_false_eq_true, if_true]
      omega
  · have h1' : ¬b.major = a.major := fun h => h1 h.symm
    simp only [ne_eq, h1, h1', not_false_eq_true, if_true]
    omega

theorem compareSemVer_trans_neg {a b c : SemVer}
    (h1 : compareSemVer a b < 0) (h2 : compareSemVer b c < 0) : compareSemVer a c < 0 := by
  rw [compareSemVer_neg_iff] at h1 h2 ⊢
  rcases h1 with h1 | ⟨e1, h1⟩
  · rcases h2 with h2 | ⟨e2, h2⟩
    · left; omega
    · left; omega
  · rcases h2 with h2 | ⟨e2, h2⟩
    · left; omega
    · right
      refine ⟨by omega, ?_⟩
      rcases h1 with h1 | ⟨f1, h1⟩
      · rcases h2 with h2 | ⟨f2, h2⟩
        · left; omega
        · left; omega
      · rcases h2 with h2 | ⟨f2, h2⟩
        · left; omega
        · right
          refine ⟨by omega, ?_⟩
          rcases h1 with h1 | ⟨g1, h1⟩
          · rcases h2 with h2 | ⟨g2, h2⟩
            · left; omega
            · left; omega
          · rcases h2 with h2 | ⟨g2, h2⟩
            · left; omega
            · right
              exact ⟨by omega, comparePreTop_trans_neg h1 h2⟩

theorem compareSemVer_total (a b : SemVer) : compareSemVer a b ≤ 0 ∨ compareSemVer b a ≤ 0 := by
  have := compareSemVer_antisym a b
  omega

theorem compareSemVer_le_antisymm {a b : SemVer}
    (h1 : compareSemVer a b ≤ 0) (h2 : compareSemVer b a ≤ 0) : a = b := by
  have := compareSemVer_antisym a b
  exact compareSemVer_eq_zero (by omega)

theorem compareSemVer_le_trans {a b c : SemVer}
    (h1 : compareSemVer a b ≤ 0) (h2 : compareSemVer b c ≤ 0) : compareSemVer a c ≤ 0 := by
  rcases lt_or_eq_of_le h1 with hl | he
  · rcases lt_or_eq_of_le h2 with hl2 | he2
    · exact le_of_lt (compareSemVer_trans_neg hl hl2)
    · rw [← compareSemVer_eq_zero he2]
      exact h1
  · rw [compareSemVer_eq_zero he]
    exact h2

theorem comparePreIds_append_congr :
    ∀ (pre : List PreId) {x y : PreId} (r1 r2 : List PreId), x ≠ y →
      comparePreIds (pre ++ x :: r1) (pre ++ y :: r2) = comparePreId x y
  | [], x, y, r1, r2, h => by simp [comparePreIds, h]
  | p :: pre, x, y, r1, r2, h => by
    simp only [List.cons_append, comparePreIds, if_pos rfl]
    exact comparePreIds_append_congr pre r1 r2 h

/-! ## Resolver comparator and sorting lemmas -/

theorem tarballCompare_self (a : TarballMetadata) : tarballCompare a a = 0 := by
  simp only [tarballCompare, compareSemVer_self, ne_eq, not_true_eq_false, if_false]
  cases a.timestamp <;> simp

theorem tarballLE_refl (a : TarballMetadata) : tarballLE a a := by
  unfold tarballLE
  rw [tarballCompare_self]

theorem tarballCompare_antisym (a b : TarballMetadata) :
    tarballCompare a b = -tarballCompare b a := by
  have hab := compareSemVer_antisym a.version b.version
  simp only [tarballCompare]
  split_ifs with h1 h2 h2
  · omega
  · omega
  · omega
  · cases ha : a.timestamp <;> cases hb : b.timestamp <;> simp

theorem tarballLE_total (a b : TarballMetadata) : tarballLE a b ∨ tarballLE b a := by
  unfold tarballLE
  have := tarballCompare_antisym a b
  omega

theorem tarballCompare_le_iff {a b : TarballMetadata} {ta tb : Int}
    (hta : a.timestamp = some ta) (htb : b.timestamp = some tb) :
    tarballCompare a b ≤ 0 ↔
      (compareSemVer a.version b.version < 0 ∨
        (compareSemVer a.version b.version = 0 ∧ ta ≤ tb)) := by
  simp only [tarballCompare, hta, htb]
  split_ifs with h
  · constructor
    · intro hle
      exact Or.inl (lt_of_le_of_ne hle h)
    · rintro (hl | ⟨he, -⟩)
      · exact le_of_lt hl
      · exact absurd he h
  · have he := not_ne_iff.mp h
    constructor
    · intro hle
      exact Or.inr ⟨he, by omega⟩
    · rintro (hl | ⟨-, hts⟩)
      · omega
      · omega

theorem tarballLE_trans_some {a b c : TarballMetadata}
    (ha : a.timestamp.isSome = true) (hb : b.timestamp.isSome = true)
    (hc : c.timestamp.isSome = true)
    (h1 : tarballLE a b) (h2 : tarballLE b c) : tarballLE a c := by
  obtain ⟨ta, hta⟩ := Option.isSome_iff_exists.mp ha
  obtain ⟨tb, htb⟩ := Option.isSome_iff_exists.mp hb
  obtain ⟨tc, htc⟩ := Option.isSome_iff_exists.mp hc
  unfold tarballLE at h1 h2 ⊢
  rw [tarballCompare_le_iff hta htb] at h1
  rw [tarballCompare_le_iff htb htc] at h2
  rw [tarballCompare_le_iff hta htc]
  rcases h1 with h1 | ⟨e1, h1⟩ <;> rcases h2 with h2 | ⟨e2, h2⟩
  · exact Or.inl (compareSemVer_trans_neg h1 h2)
  · rw [← compareSemVer_eq_zero e2]
    exact Or.inl h1
  · rw [compareSemVer_eq_zero e1]
    exact Or.inl h2
  · right
    constructor
    · rw [compareSemVer_eq_zero e1, compareSemVer_eq_zero e2]
      exact compareSemVer_self _
    · omega

theorem orderedInsert_sorted_tarball {l : List TarballMetadata} {a : TarballMetadata}
    (ha : a.timestamp.isSome = true) (hl : ∀ x ∈ l, x.timestamp.isSome = true)
    (hs : List.Sorted tarballLE l) :
    List.Sorted tarballLE (l.orderedInsert tarballLE a) := by
  induction l with
  | nil => simp
  | cons b t ih =>
    have hb : b.timestamp.isSome = true := hl b (List.mem_cons_self b t)
    have hlt : ∀ x ∈ t, x.timestamp.isSome = true :=
      fun x hx => hl x (List.mem_cons_of_mem b hx)
    obtain ⟨hbt, hst⟩ := List.sorted_cons.mp hs
    rw [List.orderedInsert]
    split_ifs with hab
    · rw [List.sorted_cons]
      refine ⟨?_, hs⟩
      intro x hx
      rcases List.mem_cons.mp hx with rfl | hx2
      · exact hab
      · exact tarballLE_trans_some ha hb (hlt x hx2) hab (hbt x hx2)
    · rw [List.sorted_cons]
      refine ⟨?_, ih hlt hst⟩
      intro x hx
      rw [List.mem_orderedInsert] at hx
      rcases hx with rfl | hx2
      · exact (tarballLE_total x b).resolve_left hab
      · exact hbt x hx2

theorem insertionSort_sorted_tarball {l : List TarballMetadata}
    (hl : ∀ x ∈ l, x.timestamp.isSome = true) :
    List.Sorted tarballLE (List.insertionSort tarballLE l) := by
  induction l with
  | nil => simp
  | cons a t ih =>
    rw [List.insertionSort]
    refine orderedInsert_sorted_tarball (hl a (List.mem_cons_self a t)) ?_
      (ih fun x hx => hl x (List.mem_cons_of_mem a hx))
    intro x hx
    exact hl x (List.mem_cons_of_mem a ((List.mem_insertionSort tarballLE).mp hx))

theorem sorted_getLast?_max :
    ∀ {l : List TarballMetadata}, List.Sorted tarballLE l → l ≠ [] →
      ∃ m, l.getLast? = some m ∧ m ∈ l ∧ ∀ x ∈ l, tarballLE x m
  | [], _, h => absurd rfl h
  | [a], _, _ => by
    refine ⟨a, rfl, List.mem_singleton_self a, ?_⟩
    intro x hx
    rw [List.mem_singleton.mp hx]
    exact tarballLE_refl a
  | a :: b :: t, hs, _ => by
    obtain ⟨ha, hs'⟩ := List.sorted_cons.mp hs
    obtain ⟨m, hm1, hm2, hm3⟩ := sorted_getLast?_max hs' (by simp)
    refine ⟨m, ?_, List.mem_cons_of_mem a hm2, ?_⟩
    · rw [List.getLast?_cons_cons]
      exact hm1
    · intro x hx
      rcases List.mem_cons.mp hx with rfl | hx2
      · exact ha m hm2
      · exact hm3 x hx2

/-- The claim's key fact for the resolver: with a non-empty decodable
candidate set whose timestamps all parsed, `resolveLatest` succeeds and
returns a candidate maximal for (SemVer compare, then numeric timestamp):
every other candidate has a strictly smaller version, or an equal version and
a timestamp no larger. -/
theorem resolveLatest_returns_max (files : List Chars) (rawName : Chars)
    (hne : tarballsOf files (getSafePackageNameChars rawName) ≠ [])
    (hts : ∀ e ∈ tarballsOf files (getSafePackageNameChars rawName),
      e.timestamp.isSome = true) :
    ∃ m, resolveLatest files rawName = some m ∧
      m ∈ tarballsOf files (getSafePackageNameChars rawName) ∧
      ∀ x ∈ tarballsOf files (getSafePackageNameChars rawName),
        compareSemVer x.version m.version < 0 ∨
          (compareSemVer x.version m.version = 0 ∧
            ∃ tx tm, x.timestamp = some tx ∧ m.timestamp = some tm ∧ tx ≤ tm) := by
  have hsorted := insertionSort_sorted_tarball hts
  have hne2 :
      List.insertionSort tarballLE (tarballsOf files (getSafePackageNameChars rawName)) ≠ [] := by
    intro h
    apply hne
    have hp := List.perm_insertionSort tarballLE
      (tarballsOf files (getSafePackageNameChars rawName))
    rw [h] at hp
    exact (List.Perm.nil_eq hp).symm
  obtain ⟨m, hm1, hm2, hm3⟩ := sorted_getLast?_max hsorted hne2
  have hmc : m ∈ tarballsOf files (getSafePackageNameChars rawName) :=
    (List.mem_insertionSort tarballLE).mp hm2
  refine ⟨m, hm1, hmc, ?_⟩
  intro x hx
  have hxm : tarballLE x m := hm3 x ((List.mem_insertionSort tarballLE).mpr hx)
  obtain ⟨tx, htx⟩ := Option.isSome_iff_exists.mp (hts x hx)
  obtain ⟨tm, htm⟩ := Option.isSome_iff_exists.mp (hts m hmc)
  unfold tarballLE at hxm
  rw [tarballCompare_le_iff htx htm] at hxm
  rcases hxm with h | ⟨he, hle⟩
  · exact Or.inl h
  · exact Or.inr ⟨he, tx, tm, htx, htm, hle⟩

/-! ## Positional prerelease lemmas and the total-order theorem -/

theorem cmpInt_self (a : JSNum) : JSNum.cmpInt a a = 0 := by
  rcases a with x | _ | _ <;> simp [JSNum.cmpInt, lt_irrefl]

theorem comparePreTop_ne_nil {l1 l2 : List PreId} (h1 : l1 ≠ []) (h2 : l2 ≠ []) :
    comparePreTop l1 l2 = comparePreIds l1 l2 := by
  cases l1 with
  | nil => exact absurd rfl h1
  | cons x xs =>
    cases l2 with
    | nil => exact absurd rfl h2
    | cons y ys => rfl

theorem comparePreIds_self_append (x : PreId) (r : List PreId) :
    ∀ l : List PreId, comparePreIds l (l ++ x :: r) = -1
  | [] => rfl
  | c :: cl => by
    simp only [List.cons_append, comparePreIds, if_pos rfl]
    exact comparePreIds_self_append x r cl

theorem compareSemVer_pre_block (M m p : Nat) (l1 l2 : List PreId) :
    compareSemVer ⟨M, m, p, l1⟩ ⟨M, m, p, l2⟩ = comparePreTop l1 l2 := by
  simp [compareSemVer]

/-- C6: `compareSemVer` induces a total order on parsed versions (totality,
antisymmetry up to equality, transitivity); with equal numeric triples a
release beats any prerelease, a strict-prefix prerelease sequence is smaller,
a numeric identifier is smaller than a string identifier at the same
position, numeric identifiers compare numerically, string identifiers compare
by the (lexicographic) string comparison; and the standard precedence chain
`1.0.0-alpha < 1.0.0-alpha.1 < 1.0.0-alpha.beta < 1.0.0-beta < 1.0.0-beta.2
< 1.0.0-beta.11 < 1.0.0-rc.1 < 1.0.0` holds. -/
theorem compareSemVer_total_order_spec :
    (∀ a b : SemVer, compareSemVer a b ≤ 0 ∨ compareSemVer b a ≤ 0) ∧
    (∀ a b : SemVer, compareSemVer a b ≤ 0 → compareSemVer b a ≤ 0 → a = b) ∧
    (∀ a b c : SemVer,
      compareSemVer a b ≤ 0 → compareSemVer b c ≤ 0 → compareSemVer a c ≤ 0) ∧
    (∀ (M m p : Nat) (pre : List PreId), pre ≠ [] →
      compareSemVer ⟨M, m, p, pre⟩ ⟨M, m, p, []⟩ < 0) ∧
    (∀ (M m p : Nat) (l : List PreId) (x : PreId) (r : List PreId), l ≠ [] →
      compareSemVer ⟨M, m, p, l⟩ ⟨M, m, p, l ++ x :: r⟩ < 0) ∧
    (∀ (M m p : Nat) (pre : List PreId) (q : JSNum) (s : Chars) (r1 r2 : List PreId),
      compareSemVer ⟨M, m, p, pre ++ .num q :: r1⟩ ⟨M, m, p, pre ++ .str s :: r2⟩ < 0) ∧
    (∀ (M m p : Nat) (pre : List PreId) (x y : ℚ) (r1 r2 : List PreId), x < y →
      compareSemVer ⟨M, m, p, pre ++ .num (.fin x) :: r1⟩
        ⟨M, m, p, pre ++ .num (.fin y) :: r2⟩ < 0) ∧
    (∀ (M m p : Nat) (pre : List PreId) (s1 s2 : Chars) (r1 r2 : List PreId), s1 ≠ s2 →
      compareSemVer ⟨M, m, p, pre ++ .str s1 :: r1⟩ ⟨M, m, p, pre ++ .str s2 :: r2⟩ =
        localeCompare s1 s2) ∧
    (cmpTexts "1.0.0-alpha" "1.0.0-alpha.1" = some (-1) ∧
      cmpTexts "1.0.0-alpha.1" "1.0.0-alpha.beta" = some (-1) ∧
      cmpTexts "1.0.0-alpha.beta" "1.0.0-beta" = some (-1) ∧
      cmpTexts "1.0.0-beta" "1.0.0-beta.2" = some (-1) ∧
      cmpTexts "1.0.0-beta.2" "1.0.0-beta.11" = some (-1) ∧
      cmpTexts "1.0.0-beta.11" "1.0.0-rc.1" = some (-1) ∧
      cmpTexts "1.0.0-rc.1" "1.0.0" = some (-1)) := by
  refine ⟨compareSemVer_total, fun a b => compareSemVer_le_antisymm,
    fun a b c => compareSemVer_le_trans, ?_, ?_, ?_, ?_, ?_, ?_⟩
  · intro M m p pre hne
    rw [compareSemVer_pre_block]
    cases pre with
    | nil => exact absurd rfl hne
    | cons x xs => simp [comparePreTop]
  · intro M m p l x r hne
    rw [compareSemVer_pre_block,
      comparePreTop_ne_nil hne (by cases l <;> simp),
      comparePreIds_self_append]
    decide
  · intro M m p pre q s r1 r2
    rw [compareSemVer_pre_block, comparePreTop_ne_nil (by simp) (by simp),
      comparePreIds_append_congr pre r1 r2 (by simp)]
    simp [comparePreId]
  · intro M m p pre x y r1 r2 hxy
    rw [compareSemVer_pre_block, comparePreTop_ne_nil (by simp) (by simp),
      comparePreIds_append_congr pre r1 r2
        (by simp only [ne_eq, PreId.num.injEq, JSNum.fin.injEq]; exact fun h => absurd (h ▸ hxy) (lt_irrefl y))]
    simp only [comparePreId, JSNum.cmpInt, if_pos hxy]
    decide
  · intro M m p pre s1 s2 r1 r2 hne
    rw [compareSemVer_pre_block, comparePreTop_ne_nil (by simp) (by simp),
      comparePreIds_append_congr pre r1 r2 (by simp [hne])]
    rfl
  · exact ⟨by decide, by decide, by decide, by decide, by decide, by decide, by decide⟩

theorem compareSemVer_total_order_spec_witness :
    compareSemVer ⟨1, 0, 0, [PreId.str ['a']]⟩ ⟨1, 0, 0, []⟩ < 0 ∧
    compareSemVer ⟨1, 0, 0, []⟩ ⟨2, 0, 0, []⟩ ≤ 0 :=
  ⟨compareSemVer_total_order_spec.2.2.2.1 1 0 0 [PreId.str ['a']] (by decide),
    compareSemVer_total_order_spec.2.2.1 ⟨1, 0, 0, []⟩ ⟨1, 5, 0, []⟩ ⟨2, 0, 0, []⟩
      (by decide) (by decide)⟩

theorem resolveLatest_returns_max_witness :
    (∃ m, resolveLatest ["foo-1.0.0-100.tgz".data, "foo-1.0.0-200.tgz".data,
        "foo-1.2.0-50.tgz".data] "foo".data = some m ∧
      m ∈ tarballsOf ["foo-1.0.0-100.tgz".data, "foo-1.0.0-200.tgz".data,
        "foo-1.2.0-50.tgz".data] (getSafePackageNameChars "foo".data) ∧
      ∀ x ∈ tarballsOf ["foo-1.0.0-100.tgz".data, "foo-1.0.0-200.tgz".data,
        "foo-1.2.0-50.tgz".data] (getSafePackageNameChars "foo".data),
        compareSemVer x.version m.version < 0 ∨
          (compareSemVer x.version m.version = 0 ∧
            ∃ tx tm, x.timestamp = some tx ∧ m.timestamp = some tm ∧ tx ≤ tm)) ∧
    (resolveLatest ["foo-1.0.0-100.tgz".data, "foo-1.0.0-200.tgz".data,
        "foo-1.2.0-50.tgz".data] "foo".data).map (fun e => e.file) =
      some "foo-1.2.0-50.tgz".data ∧
    (resolveLatest ["foo-1.0.0-100.tgz".data, "foo-1.0.0-200.tgz".data] "foo".data).map
      (fun e => e.file) = some "foo-1.0.0-200.tgz".data :=
  ⟨resolveLatest_returns_max _ _ (by decide) (by decide), by decide, by decide⟩

/-! ## Encode/decode round-trip -/

theorem encodeChars_eq (safe ver : Chars) (t : Nat) :
    encodeChars safe ver t = ((safe ++ ['-']) ++ (ver ++ '-' :: natToChars t)) ++ tgzExt := by
  simp [encodeChars]

/-- C2: decoding the encoded filename with the same sanitized name recovers
exactly the pair (version text, timestamp): the last-hyphen split returns the
version text and the rendered timestamp verbatim, and the decoded entry
carries the parsed version and the integer timestamp. -/
theorem decode_encode_roundtrip (safe ver : Chars) (t : Nat) (sv : SemVer)
    (h : parseSemVerChars ver = some sv) :
    splitLastHyphen (((encodeChars safe ver t).take
        ((encodeChars safe ver t).length - 4)).drop (safe.length + 1)) =
      some (ver, natToChars t) ∧
    decodeFile safe (encodeChars safe ver t) =
      some ⟨encodeChars safe ver t, sv, some (t : Int)⟩ := by
  have hnd : '-' ∉ natToChars t := by
    intro hm
    obtain ⟨-, -, hdig⟩ := natToChars_spec t
    exact (digit_char_facts (hdig '-' hm)).2.1 rfl
  have htake : (encodeChars safe ver t).take ((encodeChars safe ver t).length - 4) =
      (safe ++ ['-']) ++ (ver ++ '-' :: natToChars t) := by
    rw [encodeChars_eq]
    have hlen : ((((safe ++ ['-']) ++ (ver ++ '-' :: natToChars t)) ++ tgzExt).length - 4) =
        ((safe ++ ['-']) ++ (ver ++ '-' :: natToChars t)).length := by
      simp [tgzExt]
      omega
    rw [hlen]
    exact List.take_left _ _
  have hdrop : ((safe ++ ['-']) ++ (ver ++ '-' :: natToChars t)).drop (safe.length + 1) =
      ver ++ '-' :: natToChars t := by
    have hl : safe.length + 1 = (safe ++ ['-']).length := by simp
    rw [hl]
    exact List.drop_left _ _
  have hsplit := splitLastHyphen_append ver hnd
  refine ⟨by rw [htake, hdrop]; exact hsplit, ?_⟩
  have hfilter : listTarballFilter safe (encodeChars safe ver t) = true := by
    unfold listTarballFilter
    rw [encodeChars_eq, Bool.and_eq_true]
    constructor
    · rw [List.append_assoc, List.isPrefixOf_iff_prefix]
      exact List.prefix_append _ _
    · rw [List.isSuffixOf_iff_suffix]
      exact List.suffix_append _ _
  unfold decodeFile
  rw [if_pos hfilter]
  simp only [decodeTarballEntry]
  rw [htake, hdrop, hsplit]
  simp only [h, jsParseInt_natToChars]

theorem decode_encode_roundtrip_witness :
    parseSemVerChars "1.2.3-rc.1".data =
      some ⟨1, 2, 3, [PreId.str "rc".data, PreId.num (JSNum.fin 1)]⟩ ∧
    decodeFile "foo".data (encodeChars "foo".data "1.2.3-rc.1".data 42) =
      some ⟨encodeChars "foo".data "1.2.3-rc.1".data 42,
        ⟨1, 2, 3, [PreId.str "rc".data, PreId.num (JSNum.fin 1)]⟩, some (42 : Int)⟩ :=
  ⟨by decide, (decode_encode_roundtrip "foo".data "1.2.3-rc.1".data 42 _ (by decide)).2⟩

/-! ## Decode failure characterisation -/

theorem tarballsOf_eq_filterMap (files : List Chars) (safe : Chars) :
    tarballsOf files safe = files.filterMap (decodeFile safe) := by
  unfold tarballsOf decodeFile
  induction files with
  | nil => rfl
  | cons f fs ih =>
    by_cases hf : listTarballFilter safe f
    · simp [List.filter_cons, List.filterMap_cons, hf, ih]
    · simp [List.filter_cons, List.filterMap_cons, hf, ih]

/-- C4 (amended): decoding a directory entry yields `null` exactly when the
filename fails the `${safe}-` prefix test, fails the `.tgz` suffix test, has
no hyphen left after stripping prefix and suffix, or its version segment does
not parse as a SemVer; a timestamp segment that does not parse as an integer
does not cause `null` (the entry is kept with a NaN timestamp).  Entries that
decode to `null` are exactly the ones silently dropped from the candidate
set. -/
theorem decodeTarballEntry_none_iff (safe file : Chars) :
    decodeTarballEntry safe file = none ↔
      (splitLastHyphen ((file.take (file.length - 4)).drop (safe.length + 1)) = none ∨
        ∃ vs ts,
          splitLastHyphen ((file.take (file.length - 4)).drop (safe.length + 1)) =
            some (vs, ts) ∧ parseSemVerChars vs = none) := by
  simp only [decodeTarballEntry]
  rcases hs : splitLastHyphen ((file.take (file.length - 4)).drop (safe.length + 1)) with
    - | ⟨vs, ts⟩
  · simp
  · rcases hv : parseSemVerChars vs with - | v
    · simp only [hv]
      exact iff_of_true trivial (Or.inr ⟨vs, ts, rfl, hv⟩)
    · simp only [hv]
      apply iff_of_false (by simp)
      rintro (h | ⟨vs2, ts2, heq, hv2⟩)
      · exact absurd h (by simp)
      · have h1 : vs = vs2 := congrArg Prod.fst (Option.some.inj heq)
        rw [← h1, hv] at hv2
        exact absurd hv2 (by simp)

theorem decodeFile_none_iff (safe file : Chars) :
    (decodeFile safe file = none ↔
      ((safe ++ ['-']).isPrefixOf file = false ∨ tgzExt.isSuffixOf file = false ∨
        splitLastHyphen ((file.take (file.length - 4)).drop (safe.length + 1)) = none ∨
        ∃ vs ts,
          splitLastHyphen ((file.take (file.length - 4)).drop (safe.length + 1)) =
            some (vs, ts) ∧ parseSemVerChars vs = none)) ∧
    ∀ files : List Chars, tarballsOf files safe = files.filterMap (decodeFile safe) := by
  refine ⟨?_, fun files => tarballsOf_eq_filterMap files safe⟩
  unfold decodeFile
  by_cases hb : listTarballFilter safe file = true
  · rw [if_pos hb]
    unfold listTarballFilter at hb
    obtain ⟨hp, hsuf⟩ := Bool.and_eq_true_iff.mp hb
    rw [decodeTarballEntry_none_iff, hp, hsuf]
    constructor
    · intro h
      exact Or.inr (Or.inr h)
    · rintro (h | h | h)
      · exact absurd h (by simp)
      · exact absurd h (by simp)
      · exact h
  · rw [if_neg hb]
    unfold listTarballFilter at hb
    constructor
    · intro _
      rcases Bool.eq_false_or_eq_true ((safe ++ ['-']).isPrefixOf file) with h | h
      · rcases Bool.eq_false_or_eq_true (tgzExt.isSuffixOf file) with h2 | h2
        · exact absurd (by rw [h, h2]; rfl) hb
        · exact Or.inr (Or.inl h2)
      · exact Or.inl h
    · intro _
      rfl

/-- Counterexample to the claimed decode contract: `foo-1.0.0-x.tgz` has a
timestamp segment that does not parse as an integer, yet decode keeps the
entry (with a NaN timestamp) instead of returning `null`; `foo-nope-123.tgz`
satisfies none of the claimed `null` conditions (prefix, suffix, hyphen and
integer timestamp all fine), yet decode returns `null` because the version
segment `nope` does not parse. -/
theorem decodeFile_none_iff_counterexample :
    (decodeFile "foo".data "foo-1.0.0-x.tgz".data =
        some ⟨"foo-1.0.0-x.tgz".data, ⟨1, 0, 0, []⟩, none⟩ ∧
      jsParseInt "x".data = none) ∧
    (decodeFile "foo".data "foo-nope-123.tgz".data = none ∧
      ("foo".data ++ ['-']).isPrefixOf "foo-nope-123.tgz".data = true ∧
      tgzExt.isSuffixOf "foo-nope-123.tgz".data = true ∧
      splitLastHyphen ((("foo-nope-123.tgz".data).take
          (("foo-nope-123.tgz".data).length - 4)).drop (("foo".data).length + 1)) =
        some ("nope".data, "123".data) ∧
      jsParseInt "123".data = some 123) := by
  decide

/-! ## Publish-model lemmas -/

theorem isPrefixOf_append_cancel :
    ∀ (xs ys zs : Chars), (xs ++ ys).isPrefixOf (xs ++ zs) = ys.isPrefixOf zs := by
  intro xs ys zs
  induction xs with
  | nil => rfl
  | cons c cl ih => simp [List.isPrefixOf, ih]

theorem not_isPrefixOf_supersede_orig (safe ver : Chars) :
    (supersedeKey safe ver).isPrefixOf (originalTarballName safe ver) = false := by
  have h1 : supersedeKey safe ver = (safe ++ '-' :: ver) ++ ['-'] := by simp [supersedeKey]
  have h2 : originalTarballName safe ver = (safe ++ '-' :: ver) ++ '.' :: ['t', 'g', 'z'] := by
    simp [originalTarballName, tgzExt]
  rw [h1, h2, isPrefixOf_append_cancel]
  decide

theorem supersedeKey_isPrefixOf_encode (safe ver : Chars) (ts : Nat) :
    (supersedeKey safe ver).isPrefixOf (encodeChars safe ver ts) = true := by
  have h : encodeChars safe ver ts = supersedeKey safe ver ++ (natToChars ts ++ tgzExt) := by
    simp [encodeChars, supersedeKey]
  rw [h, List.isPrefixOf_iff_prefix]
  exact List.prefix_append _ _

theorem orig_ne_encode (safe ver : Chars) (ts : Nat) :
    originalTarballName safe ver ≠ encodeChars safe ver ts := by
  intro heq
  have h1 := not_isPrefixOf_supersede_orig safe ver
  have h2 := supersedeKey_isPrefixOf_encode safe ver ts
  rw [heq] at h1
  exact absurd (h2.symm.trans h1) (by decide)

theorem orig_not_mem_publishRun (c : List Chars) (safe ver : Chars) (ts : Nat) :
    originalTarballName safe ver ∉ publishRun c safe ver ts := by
  unfold publishRun publishRename
  rw [List.mem_append]
  rintro (h | h)
  · rw [List.mem_filter] at h
    have h2 := h.2
    simp at h2
  · rw [List.mem_singleton] at h
    exact orig_ne_encode safe ver ts h

theorem filter_key_publishRun (c : List Chars) (safe ver : Chars) (ts : Nat) :
    (publishRun c safe ver ts).filter
      (fun f => (supersedeKey safe ver).isPrefixOf f) = [encodeChars safe ver ts] := by
  unfold publishRun publishRename publishDelete
  rw [List.filter_append]
  have hnew := supersedeKey_isPrefixOf_encode safe ver ts
  have h0 : ∀ l : List Chars,
      (((l.filter fun f => !(supersedeKey safe ver).isPrefixOf f).filter
        fun f => f ≠ originalTarballName safe ver).filter
        fun f => (supersedeKey safe ver).isPrefixOf f) = [] := by
    intro l
    induction l with
    | nil => rfl
    | cons a l ih =>
      by_cases ha : (supersedeKey safe ver).isPrefixOf a = true
      · rw [List.filter_cons_of_neg (by rw [ha]; decide)]
        exact ih
      · have ha' : (supersedeKey safe ver).isPrefixOf a = false := Bool.eq_false_iff.mpr ha
        rw [List.filter_cons_of_pos (by rw [ha']; decide)]
        by_cases hne : a = originalTarballName safe ver
        · rw [List.filter_cons_of_neg (by simp [hne])]
          exact ih
        · rw [List.filter_cons_of_pos (by simp [hne]),
            List.filter_cons_of_neg (by rw [ha']; decide)]
          exact ih
  rw [h0]
  simp [hnew]

/-- C10: during publish's supersede step the deletion filter requires a
hyphen right after the version text, so the fixed-name build output
`${safe}-${version}.tgz` never matches it; hence after the deletion step the
rename's source file still exists in the cache. -/
theorem publish_rename_source_safe (cache : List Chars) (safe ver : Chars) :
    (supersedeKey safe ver).isPrefixOf (originalTarballName safe ver) = false ∧
    originalTarballName safe ver ∈ publishDelete (publishPack cache safe ver) safe ver := by
  refine ⟨not_isPrefixOf_supersede_orig safe ver, ?_⟩
  unfold publishDelete publishPack
  rw [List.mem_filter]
  constructor
  · exact List.mem_cons_self _ _
  · simp [not_isPrefixOf_supersede_orig safe ver]

/-- C3 (amended): the supersede step deletes exactly the files carrying the
`${safe}-${version}-` filename key — in particular every stamped artifact of
the published pair — before the fresh artifact is stamped, and publish
preserves exactly the files without that key other than the fixed-name build
output; files of a different pair are preserved only when their name does not
start with the key (see the counterexample for one that is deleted). -/
theorem publish_supersede_frame (cache : List Chars) (safe ver : Chars) (ts : Nat) :
    (∀ t2 : Nat, (supersedeKey safe ver).isPrefixOf (encodeChars safe ver t2) = true) ∧
    (∀ f : Chars, (supersedeKey safe ver).isPrefixOf f = true →
      f ∉ publishDelete (publishPack cache safe ver) safe ver) ∧
    (∀ f : Chars, (supersedeKey safe ver).isPrefixOf f = false →
      f ≠ originalTarballName safe ver →
      (f ∈ publishRun cache safe ver ts ↔ f ∈ cache ∨ f = encodeChars safe ver ts)) := by
  refine ⟨supersedeKey_isPrefixOf_encode safe ver, ?_, ?_⟩
  · intro f hp
    unfold publishDelete
    rw [List.mem_filter]
    rintro ⟨-, h2⟩
    rw [hp] at h2
    exact absurd h2 (by decide)
  · intro f hnp hno
    unfold publishRun publishRename publishDelete publishPack
    simp only [List.mem_append, List.mem_filter, List.mem_cons, List.not_mem_nil, or_false,
      decide_eq_true_eq]
    constructor
    · rintro (⟨⟨h1 | ⟨h1, -⟩, -⟩, -⟩ | h1)
      · exact absurd h1 hno
      · exact Or.inl h1
      · exact Or.inr h1
    · rintro (h1 | h1)
      · exact Or.inl ⟨⟨Or.inr ⟨h1, hno⟩, by rw [hnp]; decide⟩, hno⟩
      · exact Or.inr h1

/-- Counterexample to the frame part of the claim: `foo-1.0-2-500.tgz` is the
encoded artifact of the pair ("foo", "1.0-2") — a different version of the
same package, and "1.0-2" parses — yet publishing ("foo", "1.0") deletes it
because its name starts with the deletion key `foo-1.0-`. -/
theorem publish_supersede_frame_counterexample :
    "foo-1.0-2-500.tgz".data = encodeChars "foo".data "1.0-2".data 500 ∧
    "1.0-2".data ≠ "1.0".data ∧
    (parseSemVerChars "1.0-2".data).isSome = true ∧
    "foo-1.0-2-500.tgz".data ∉
      publishRun ["foo-1.0-2-500.tgz".data] "foo".data "1.0".data 900 := by
  decide

theorem publish_supersede_frame_witness :
    "bar-2.0.0-7.tgz".data ∉
      publishDelete (publishPack ["bar-2.0.0-7.tgz".data] "bar".data "2.0.0".data)
        "bar".data "2.0.0".data ∧
    ("other-1.0.0-5.tgz".data ∈
        publishRun ["other-1.0.0-5.tgz".data] "bar".data "2.0.0".data 9 ↔
      "other-1.0.0-5.tgz".data ∈ ["other-1.0.0-5.tgz".data] ∨
        "other-1.0.0-5.tgz".data = encodeChars "bar".data "2.0.0".data 9) :=
  ⟨(publish_supersede_frame ["bar-2.0.0-7.tgz".data] "bar".data "2.0.0".data 9).2.1
      "bar-2.0.0-7.tgz".data (by decide),
    (publish_supersede_frame ["other-1.0.0-5.tgz".data] "bar".data "2.0.0".data 9).2.2
      "other-1.0.0-5.tgz".data (by decide) (by decide)⟩

/-- C5: running publish twice for the same (name, version) leaves exactly one
stamped artifact for that version — the second one — with no accumulation and
without leaving the fixed-name tarball behind; with a monotone clock
(`t1 < t2` between the two `Date.now()` readings) its timestamp is strictly
greater than the first artifact's. -/
theorem publish_twice_single_artifact (cache : List Chars) (safe ver : Chars)
    (t1 t2 : Nat) (h : t1 < t2) :
    (publishRun (publishRun cache safe ver t1) safe ver t2).filter
        (fun f => (supersedeKey safe ver).isPrefixOf f) = [encodeChars safe ver t2] ∧
    encodeChars safe ver t1 ∉ publishRun (publishRun cache safe ver t1) safe ver t2 ∧
    originalTarballName safe ver ∉ publishRun (publishRun cache safe ver t1) safe ver t2 ∧
    t1 < t2 := by
  refine ⟨filter_key_publishRun _ safe ver t2, ?_, orig_not_mem_publishRun _ safe ver t2, h⟩
  intro hmem
  have hfil := filter_key_publishRun (publishRun cache safe ver t1) safe ver t2
  have hin : encodeChars safe ver t1 ∈
      (publishRun (publishRun cache safe ver t1) safe ver t2).filter
        (fun f => (supersedeKey safe ver).isPrefixOf f) := by
    rw [List.mem_filter]
    exact ⟨hmem, supersedeKey_isPrefixOf_encode safe ver t1⟩
  rw [hfil, List.mem_singleton] at hin
  have hneq : encodeChars safe ver t1 ≠ encodeChars safe ver t2 := by
    intro heq
    have k1 : encodeChars safe ver t1 = supersedeKey safe ver ++ (natToChars t1 ++ tgzExt) := by
      simp [encodeChars, supersedeKey]
    have k2 : encodeChars safe ver t2 = supersedeKey safe ver ++ (natToChars t2 ++ tgzExt) := by
      simp [encodeChars, supersedeKey]
    rw [k1, k2] at heq
    have e2 : natToChars t1 ++ tgzExt = natToChars t2 ++ tgzExt :=
      List.append_cancel_left heq
    have e3 : natToChars t1 = natToChars t2 := List.append_cancel_right e2
    have v1 := (natToChars_spec t1).2.1
    have v2 := (natToChars_spec t2).2.1
    rw [e3] at v1
    omega
  exact hneq hin

theorem publish_twice_single_artifact_witness :
    (publishRun (publishRun [] "foo".data "1.0.0".data 100) "foo".data "1.0.0".data 200).filter
        (fun f => (supersedeKey "foo".data "1.0.0".data).isPrefixOf f) =
      [encodeChars "foo".data "1.0.0".data 200] ∧
    encodeChars "foo".data "1.0.0".data 100 ∉
      publishRun (publishRun [] "foo".data "1.0.0".data 100) "foo".data "1.0.0".data 200 ∧
    originalTarballName "foo".data "1.0.0".data ∉
      publishRun (publishRun [] "foo".data "1.0.0".data 100) "foo".data "1.0.0".data 200 ∧
    (100 : Nat) < 200 :=
  publish_twice_single_artifact [] "foo".data "1.0.0".data 100 200 (by decide)

/-! ## Debounce loop -/

theorem debounceActions_step (w t1 t2 : Nat) (rest : List Nat) :
    debounceActions w (t1 :: t2 :: rest) =
      if t1 + w ≤ t2 then (t1 + w) :: debounceActions w (t2 :: rest)
      else debounceActions w (t2 :: rest) := rfl

/-- C8: under the debounce loop, a burst of events in which every event
arrives strictly before its predecessor's deadline produces exactly one
downstream action, scheduled one quiet window after the last event of the
burst; an event arriving at or after that deadline produces a second,
independent action one window after itself. -/
theorem debounce_burst_spec (hd : Nat) (tl : List Nat)
    (hchain : List.Chain' (fun a b => a ≤ b ∧ b < a + debounceWindow) (hd :: tl)) :
    ∃ last, (hd :: tl).getLast? = some last ∧
      debounceActions debounceWindow (hd :: tl) = [last + debounceWindow] ∧
      ∀ e : Nat, last + debounceWindow ≤ e →
        debounceActions debounceWindow ((hd :: tl) ++ [e]) =
          [last + debounceWindow, e + debounceWindow] := by
  induction tl generalizing hd with
  | nil =>
    refine ⟨hd, rfl, rfl, ?_⟩
    intro e he
    rw [List.cons_append, List.nil_append, debounceActions_step, if_pos he]
    rfl
  | cons t rest ih =>
    obtain ⟨⟨hle, hlt⟩, hchain'⟩ := List.chain'_cons.mp hchain
    obtain ⟨last, h1, h2, h3⟩ := ih t hchain'
    refine ⟨last, ?_, ?_, ?_⟩
    · rw [List.getLast?_cons_cons]
      exact h1
    · rw [debounceActions_step, if_neg (by omega)]
      exact h2
    · intro e he
      simp only [List.cons_append]
      rw [debounceActions_step, if_neg (by omega)]
      have h3e := h3 e he
      simp only [List.cons_append] at h3e
      exact h3e

theorem debounce_burst_spec_witness :
    ∃ last, ([0, 50, 100] : List Nat).getLast? = some last ∧
      debounceActions debounceWindow [0, 50, 100] = [last + debounceWindow] ∧
      ∀ e : Nat, last + debounceWindow ≤ e →
        debounceActions debounceWindow ([0, 50, 100] ++ [e]) =
          [last + debounceWindow, e + debounceWindow] :=
  debounce_burst_spec 0 [50, 100]
    (List.Chain.cons (by decide) (List.Chain.cons (by decide) List.Chain.nil))

/-! ## Parser versus the spec grammar -/

theorem not_ws_of_toNat_range {c : Char} (h1 : 33 ≤ c.toNat) (h2 : c.toNat ≤ 122) :
    isJsWhitespace c = false := by
  simp only [isJsWhitespace, Bool.or_eq_false_iff, decide_eq_false_iff_not]
  refine ⟨⟨⟨⟨⟨⟨⟨?_, ?_⟩, ?_⟩, ?_⟩, ?_⟩, ?_⟩, ?_⟩, ?_⟩ <;>
    first
      | (intro hc; subst hc; revert h1 h2; decide)
      | (intro hc; omega)

theorem digit_toNat_range {c : Char} (h : c.isDigit = true) :
    48 ≤ c.toNat ∧ c.toNat ≤ 57 := by
  simp only [Char.isDigit, Bool.and_eq_true, decide_eq_true_eq] at h
  exact ⟨h.1, h.2⟩

theorem preChar_toNat_range {c : Char} (h : isPreChar c = true) :
    33 ≤ c.toNat ∧ c.toNat ≤ 122 := by
  simp only [isPreChar, Bool.or_eq_true, Bool.and_eq_true, decide_eq_true_eq] at h
  rcases h with ((((hd | hu) | hl) | hm) | hdot)
  · obtain ⟨h1, h2⟩ := digit_toNat_range hd
    omega
  · have h1 : 65 ≤ c.toNat := hu.1
    have h2 : c.toNat ≤ 90 := hu.2
    omega
  · have h1 : 97 ≤ c.toNat := hl.1
    have h2 : c.toNat ≤ 122 := hl.2
    omega
  · subst hm; decide
  · subst hdot; decide

theorem trimJs_eq_self {cs : Chars} (h : ∀ c ∈ cs, isJsWhitespace c = false) :
    trimJs cs = cs := by
  unfold trimJs
  have h1 : cs.dropWhile isJsWhitespace = cs := by
    cases cs with
    | nil => rfl
    | cons c r => simp [List.dropWhile_cons, h c (List.mem_cons_self c r)]
  rw [h1]
  have h2 : cs.reverse.dropWhile isJsWhitespace = cs.reverse := by
    cases hrev : cs.reverse with
    | nil => rfl
    | cons c r =>
      have hc : c ∈ cs := by
        rw [← List.mem_reverse, hrev]
        exact List.mem_cons_self c r
      simp [List.dropWhile_cons, h c hc]
  rw [h2, List.reverse_reverse]

theorem dropLeadingV_v (cs : Chars) : dropLeadingV ('v' :: cs) = cs := by
  simp [dropLeadingV]

theorem dropLeadingV_keep {c : Char} (cs : Chars) (h : c ≠ 'v') :
    dropLeadingV (c :: cs) = c :: cs := by
  simp [dropLeadingV, h]

theorem dropLeadingV_decomp (T : Chars) :
    ∃ vtag, (vtag = [] ∨ vtag = ['v']) ∧ T = vtag ++ dropLeadingV T := by
  cases T with
  | nil => exact ⟨[], Or.inl rfl, rfl⟩
  | cons c r =>
    by_cases hc : c = 'v'
    · subst hc
      exact ⟨['v'], Or.inr rfl, by simp [dropLeadingV]⟩
    · exact ⟨[], Or.inl rfl, by simp [dropLeadingV, hc]⟩

theorem takeDotNum_none_head {cs : Chars} (h : ∀ c, cs.head? = some c → c ≠ '.') :
    takeDotNum cs = (none, cs) := by
  cases cs with
  | nil => rfl
  | cons c r => simp [takeDotNum, h c rfl]

theorem takeDotNum_dot {m rest : Chars} (hm : m ≠ []) (hmd : ∀ c ∈ m, c.isDigit = true)
    (hr : ∀ c, rest.head? = some c → c.isDigit = false) :
    takeDotNum ('.' :: (m ++ rest)) = (some (digitsVal m), rest) := by
  obtain ⟨ht, hd⟩ := takeWhile_append_all hmd hr
  simp [takeDotNum, ht, hd, hm]

theorem takeDotNum_shape (cs : Chars) :
    takeDotNum cs = (none, cs) ∨
    ∃ ms, ms ≠ [] ∧ (∀ c ∈ ms, c.isDigit = true) ∧
      cs = '.' :: (ms ++ (takeDotNum cs).2) ∧
      takeDotNum cs = (some (digitsVal ms), (takeDotNum cs).2) := by
  cases cs with
  | nil => exact Or.inl rfl
  | cons c r =>
    by_cases hc : c = '.'
    · subst hc
      by_cases hds : r.takeWhile Char.isDigit = []
      · left
        simp [takeDotNum, hds]
      · right
        refine ⟨r.takeWhile Char.isDigit, hds,
          fun c hc => List.mem_takeWhile_imp hc, ?_, ?_⟩
        · have hred : takeDotNum ('.' :: r) =
              (some (digitsVal (r.takeWhile Char.isDigit)), r.dropWhile Char.isDigit) := by
            simp [takeDotNum, hds]
          rw [hred]
          rw [List.takeWhile_append_dropWhile]
        · simp [takeDotNum, hds]
    · left
      refine takeDotNum_none_head ?_
      intro d hd
      rw [← Option.some.inj hd]
      exact hc

theorem head_not_digit_pre {pre : Chars} (hp : preChunk pre) :
    ∀ c, pre.head? = some c → c.isDigit = false := by
  intro c hc
  rcases hp with rfl | ⟨p, rfl, -, -⟩
  · simp at hc
  · rw [List.head?_cons] at hc
    rw [← Option.some.inj hc]
    decide

theorem head_not_dot_pre {pre : Chars} (hp : preChunk pre) :
    ∀ c, pre.head? = some c → c ≠ '.' := by
  intro c hc
  rcases hp with rfl | ⟨p, rfl, -, -⟩
  · simp at hc
  · rw [List.head?_cons] at hc
    rw [← Option.some.inj hc]
    decide

theorem head_not_digit_dotPre {d pre : Chars} (hd : dotNumChunk d) (hp : preChunk pre) :
    ∀ c, (d ++ pre).head? = some c → c.isDigit = false := by
  intro c hc
  rcases hd with rfl | ⟨m, rfl, -, -⟩
  · rw [List.nil_append] at hc
    exact head_not_digit_pre hp c hc
  · rw [List.cons_append, List.head?_cons] at hc
    rw [← Option.some.inj hc]
    decide

theorem head_not_digit_chunks {d1 d2 pre : Chars} (h1 : dotNumChunk d1)
    (_h2 : dotNumChunk d2) (h12 : d1 = [] → d2 = []) (hp : preChunk pre) :
    ∀ c, (d1 ++ (d2 ++ pre)).head? = some c → c.isDigit = false := by
  intro c hc
  rcases h1 with h1 | ⟨m, rfl, -, -⟩
  · rw [h1, List.nil_append, h12 h1, List.nil_append] at hc
    exact head_not_digit_pre hp c hc
  · rw [List.cons_append, List.head?_cons] at hc
    rw [← Option.some.inj hc]
    decide

theorem takeDotNum_preChunk {pre : Chars} (hp : preChunk pre) :
    takeDotNum pre = (none, pre) :=
  takeDotNum_none_head (head_not_dot_pre hp)

theorem parseAfterMajor_eval (major : Nat) (d1 d2 pre : Chars)
    (h1 : dotNumChunk d1) (h2 : dotNumChunk d2) (h12 : d1 = [] → d2 = [])
    (hp : preChunk pre) :
    ∃ v : SemVer, parseAfterMajor major (d1 ++ (d2 ++ pre)) = some v ∧
      v.major = major ∧
      (d1 = [] → v.minor = 0) ∧ (∀ m, d1 = '.' :: m → v.minor = digitsVal m) ∧
      (d2 = [] → v.patch = 0) ∧ (∀ m, d2 = '.' :: m → v.patch = digitsVal m) ∧
      (pre = [] → v.prerelease = []) ∧
      (∀ p, pre = '-' :: p → v.prerelease = parsePrerelease p) := by
  have hpre2 : takeDotNum pre = (none, pre) := takeDotNum_preChunk hp
  rcases h1 with hd1 | ⟨m1, hd1, hm1ne, hm1all⟩
  · have hd2 := h12 hd1
    subst hd1
    subst hd2
    simp only [List.nil_append]
    rcases hp with hpre | ⟨p, hpre, hpne, hpall⟩
    · subst hpre
      exact ⟨⟨major, 0, 0, []⟩, rfl, rfl, fun _ => rfl,
        fun m hm => absurd hm (by simp), fun _ => rfl,
        fun m hm => absurd hm (by simp), fun _ => rfl,
        fun p hp2 => absurd hp2 (by simp)⟩
    · subst hpre
      refine ⟨⟨major, 0, 0, parsePrerelease p⟩, ?_, rfl, fun _ => rfl,
        fun m hm => absurd hm (by simp), fun _ => rfl,
        fun m hm => absurd hm (by simp), fun hm => absurd hm (by simp),
        fun q hq => by injection hq with h1 h2; rw [h2]⟩
      simp only [parseAfterMajor, hpre2, hpne, hpall]
      simpa using hpne
  · subst hd1
    have hm1d : ∀ c ∈ m1, c.isDigit = true := by
      intro c hc
      exact List.all_eq_true.mp hm1all c hc
    have ht1 : takeDotNum (('.' :: m1) ++ (d2 ++ pre)) = (some (digitsVal m1), d2 ++ pre) := by
      rw [List.cons_append]
      exact takeDotNum_dot hm1ne hm1d (head_not_digit_dotPre h2 hp)
    rcases h2 with hd2 | ⟨m2, hd2, hm2ne, hm2all⟩
    · subst hd2
      simp only [List.nil_append] at ht1 ⊢
      rcases hp with hpre | ⟨p, hpre, hpne, hpall⟩
      · subst hpre
        refine ⟨⟨major, digitsVal m1, 0, []⟩, ?_, rfl,
          fun hm => absurd hm (by simp), fun m hm => by injection hm with hh ht; rw [ht],
          fun _ => rfl, fun m hm => absurd hm (by simp), fun _ => rfl,
          fun p hp2 => absurd hp2 (by simp)⟩
        simp only [parseAfterMajor, ht1, hpre2]
        rfl
      · subst hpre
        refine ⟨⟨major, digitsVal m1, 0, parsePrerelease p⟩, ?_, rfl,
          fun hm => absurd hm (by simp), fun m hm => by injection hm with hh ht; rw [ht],
          fun _ => rfl, fun m hm => absurd hm (by simp),
          fun hm => absurd hm (by simp),
          fun q hq => by injection hq with h1 h2; rw [h2]⟩
        simp only [parseAfterMajor, ht1, hpre2, hpne, hpall]
        simpa using hpne
    · subst hd2
      have hm2d : ∀ c ∈ m2, c.isDigit = true := by
        intro c hc
        exact List.all_eq_true.mp hm2all c hc
      have ht2 : takeDotNum (('.' :: m2) ++ pre) = (some (digitsVal m2), pre) := by
        rw [List.cons_append]
        exact takeDotNum_dot hm2ne hm2d (head_not_digit_pre hp)
      rcases hp with hpre | ⟨p, hpre, hpne, hpall⟩
      · subst hpre
        refine ⟨⟨major, digitsVal m1, digitsVal m2, []⟩, ?_, rfl,
          fun hm => absurd hm (by simp), fun m hm => by injection hm with hh ht; rw [ht],
          fun hm => absurd hm (by simp), fun m hm => by injection hm with hh ht; rw [ht],
          fun _ => rfl, fun p hp2 => absurd hp2 (by simp)⟩
        simp only [parseAfterMajor, ht1, ht2]
        rfl
      · subst hpre
        refine ⟨⟨major, digitsVal m1, digitsVal m2, parsePrerelease p⟩, ?_, rfl,
          fun hm => absurd hm (by simp), fun m hm => by injection hm with hh ht; rw [ht],
          fun hm => absurd hm (by simp), fun m hm => by injection hm with hh ht; rw [ht],
          fun hm => absurd hm (by simp),
          fun q hq => by injection hq with h1 h2; rw [h2]⟩
        simp only [parseAfterMajor, ht1, ht2, hpne, hpall]
        simpa using hpne

theorem takeDotNum_shape2 (cs : Chars) :
    takeDotNum cs = (none, cs) ∨
    ∃ ms rest, ms ≠ [] ∧ (∀ c ∈ ms, c.isDigit = true) ∧
      cs = '.' :: (ms ++ rest) ∧ takeDotNum cs = (some (digitsVal ms), rest) := by
  rcases takeDotNum_shape cs with h | ⟨ms, h1, h2, h3, h4⟩
  · exact Or.inl h
  · exact Or.inr ⟨ms, (takeDotNum cs).2, h1, h2, h3, h4⟩

theorem parseAfterMajor_some_shape {major : Nat} {r1 : Chars} {v : SemVer}
    (h : parseAfterMajor major r1 = some v) :
    ∃ d1 d2 pre, r1 = d1 ++ (d2 ++ pre) ∧ dotNumChunk d1 ∧ dotNumChunk d2 ∧
      (d1 = [] → d2 = []) ∧ preChunk pre := by
  rcases takeDotNum_shape2 r1 with ht1 | ⟨m1, rest1, hm1ne, hm1d, hr1eq, ht1⟩
  · -- first group absent: the second is computed on the same input
    cases hr1 : r1 with
    | nil => exact ⟨[], [], [], rfl, Or.inl rfl, Or.inl rfl, fun _ => rfl, Or.inl rfl⟩
    | cons c p =>
      subst hr1
      simp only [parseAfterMajor, ht1] at h
      by_cases hc : c = '-'
      · subst hc
        rw [if_pos rfl] at h
        by_cases hcond : (decide (p ≠ []) && p.all isPreChar) = true
        · have hb := Bool.and_eq_true_iff.mp hcond
          exact ⟨[], [], '-' :: p, rfl, Or.inl rfl, Or.inl rfl, fun _ => rfl,
            Or.inr ⟨p, rfl, by simpa using hb.1, hb.2⟩⟩
        · rw [if_neg hcond] at h
          exact absurd h (by simp)
      · rw [if_neg hc] at h
        exact absurd h (by simp)
  · -- first group = '.' :: m1
    rcases takeDotNum_shape2 rest1 with ht2 | ⟨m2, rest2, hm2ne, hm2d, hrest1eq, ht2⟩
    · cases hr2 : rest1 with
      | nil =>
        subst hr2
        exact ⟨'.' :: m1, [], [], by rw [hr1eq]; simp, Or.inr ⟨m1, rfl, hm1ne,
          List.all_eq_true.mpr hm1d⟩, Or.inl rfl, fun hf => absurd hf (by simp), Or.inl rfl⟩
      | cons c p =>
        subst hr2
        simp only [parseAfterMajor, ht1, ht2] at h
        by_cases hc : c = '-'
        · subst hc
          rw [if_pos rfl] at h
          by_cases hcond : (decide (p ≠ []) && p.all isPreChar) = true
          · have hb := Bool.and_eq_true_iff.mp hcond
            refine ⟨'.' :: m1, [], '-' :: p, by rw [hr1eq]; simp, Or.inr ⟨m1, rfl, hm1ne,
              List.all_eq_true.mpr hm1d⟩, Or.inl rfl, fun hf => absurd hf (by simp),
              Or.inr ⟨p, rfl, by simpa using hb.1, hb.2⟩⟩
          · rw [if_neg hcond] at h
            exact absurd h (by simp)
        · rw [if_neg hc] at h
          exact absurd h (by simp)
    · -- second group = '.' :: m2
      cases hr3 : rest2 with
      | nil =>
        subst hr3
        refine ⟨'.' :: m1, '.' :: m2, [], ?_, Or.inr ⟨m1, rfl, hm1ne,
          List.all_eq_true.mpr hm1d⟩, Or.inr ⟨m2, rfl, hm2ne,
          List.all_eq_true.mpr hm2d⟩, fun hf => absurd hf (by simp), Or.inl rfl⟩
        rw [hr1eq, hrest1eq]
        simp
      | cons c p =>
        subst hr3
        simp only [parseAfterMajor, ht1, ht2] at h
        by_cases hc : c = '-'
        · subst hc
          rw [if_pos rfl] at h
          by_cases hcond : (decide (p ≠ []) && p.all isPreChar) = true
          · have hb := Bool.and_eq_true_iff.mp hcond
            refine ⟨'.' :: m1, '.' :: m2, '-' :: p, ?_, Or.inr ⟨m1, rfl, hm1ne,
              List.all_eq_true.mpr hm1d⟩, Or.inr ⟨m2, rfl, hm2ne,
              List.all_eq_true.mpr hm2d⟩, fun hf => absurd hf (by simp),
              Or.inr ⟨p, rfl, by simpa using hb.1, hb.2⟩⟩
            rw [hr1eq, hrest1eq]
            simp
          · rw [if_neg hcond] at h
            exact absurd h (by simp)
        · rw [if_neg hc] at h
          exact absurd h (by simp)

theorem grammar_of_parse_some {cs : Chars} {v : SemVer}
    (h : parseSemVerChars cs = some v) : semVerGrammar (trimJs cs) := by
  obtain ⟨vtag, hvtag, hvdec⟩ := dropLeadingV_decomp (trimJs cs)
  simp only [parseSemVerChars] at h
  by_cases hds : (dropLeadingV (trimJs cs)).takeWhile Char.isDigit = []
  · rw [if_pos hds] at h
    exact absurd h (by simp)
  · rw [if_neg hds] at h
    obtain ⟨d1, d2, pre, hr1, h1, h2, h12, hp⟩ := parseAfterMajor_some_shape h
    refine ⟨vtag, (dropLeadingV (trimJs cs)).takeWhile Char.isDigit, d1, d2, pre,
      hvtag, hds, ?_, h1, h2, h12, hp, ?_⟩
    · exact List.all_eq_true.mpr fun c hc => List.mem_takeWhile_imp hc
    · rw [← hr1, List.takeWhile_append_dropWhile]
      exact hvdec

theorem parse_some_of_grammar {cs : Chars} (h : semVerGrammar (trimJs cs)) :
    ∃ v, parseSemVerChars cs = some v := by
  obtain ⟨vtag, maj, d1, d2, pre, hv, hm, hmall, h1, h2, h12, hp, heq⟩ := h
  have hmd : ∀ c ∈ maj, c.isDigit = true := fun c hc => List.all_eq_true.mp hmall c hc
  have hbody : dropLeadingV (trimJs cs) = maj ++ (d1 ++ (d2 ++ pre)) := by
    rw [heq]
    rcases hv with rfl | rfl
    · rw [List.nil_append]
      cases maj with
      | nil => exact absurd rfl hm
      | cons c mr =>
        have hc : c ≠ 'v' := (digit_char_facts (hmd c (List.mem_cons_self c mr))).2.2.2.2
        rw [List.cons_append]
        exact dropLeadingV_keep _ hc
    · rw [List.singleton_append]
      exact dropLeadingV_v _
  obtain ⟨ht, hd⟩ := takeWhile_append_all hmd (head_not_digit_chunks h1 h2 h12 hp)
  obtain ⟨v, hv2, -⟩ := parseAfterMajor_eval (digitsVal maj) d1 d2 pre h1 h2 h12 hp
  refine ⟨v, ?_⟩
  simp only [parseSemVerChars]
  rw [hbody, ht, hd, if_neg hm]
  exact hv2

theorem splitOnChar_no_sep {sep : Char} :
    ∀ {cs : Chars}, sep ∉ cs → splitOnChar sep cs = [cs]
  | [], _ => rfl
  | c :: r, h => by
    have hc : ¬c = sep := fun hc => h (hc ▸ List.mem_cons_self c r)
    have hr : splitOnChar sep r = [r] :=
      splitOnChar_no_sep fun hm => h (List.mem_cons_of_mem c hm)
    simp [splitOnChar, hc, hr]

theorem parsePrerelease_single (seg : Chars) (hne : seg ≠ []) (hnd : '.' ∉ seg) :
    parsePrerelease seg = [preIdOfSegment seg] := by
  unfold parsePrerelease
  rw [splitOnChar_no_sep hnd,
    List.filter_cons_of_pos (by simpa using List.length_pos.mpr hne)]
  rfl

/-- C7 (amended): `parse` accepts an optional leading `v`, requires a major
component of one or more digits, defaults omitted minor and patch to 0,
returns `null` exactly on text matching none of the grammar, and stores each
prerelease identifier whose text converts to a JavaScript number (not NaN) as
that number — not only plain non-negative integer numerals — and every other
identifier as its original string; e.g. `parse "v2"` yields the triple
(2,0,0). -/
theorem parse_grammar_spec :
    parseSemVer "v2" = some ⟨2, 0, 0, []⟩ ∧
    (∀ cs : Chars, parseSemVerChars cs = none ↔ ¬semVerGrammar (trimJs cs)) ∧
    (∀ maj : Chars, maj ≠ [] → (∀ c ∈ maj, c.isDigit = true) →
      parseSemVerChars maj = some ⟨digitsVal maj, 0, 0, []⟩ ∧
      parseSemVerChars ('v' :: maj) = some ⟨digitsVal maj, 0, 0, []⟩) ∧
    (∀ seg : Chars, seg ≠ [] → '.' ∉ seg →
      (∀ q, jsNumber seg = some q → parsePrerelease seg = [PreId.num q]) ∧
      (jsNumber seg = none → parsePrerelease seg = [PreId.str seg])) := by
  refine ⟨by decide, ?_, ?_, ?_⟩
  · intro cs
    constructor
    · intro hnone hgram
      obtain ⟨v, hv⟩ := parse_some_of_grammar hgram
      rw [hnone] at hv
      exact absurd hv (by simp)
    · intro hng
      cases hp : parseSemVerChars cs with
      | none => rfl
      | some v => exact absurd (grammar_of_parse_some hp) hng
  · intro maj hne hdig
    have hws : ∀ c ∈ maj, isJsWhitespace c = false :=
      fun c hc => (digit_char_facts (hdig c hc)).1
    have htrim1 : trimJs maj = maj := trimJs_eq_self hws
    have htrim2 : trimJs ('v' :: maj) = 'v' :: maj := by
      refine trimJs_eq_self ?_
      intro c hc
      rcases List.mem_cons.mp hc with rfl | hc2
      · decide
      · exact hws c hc2
    constructor
    · simp only [parseSemVerChars, htrim1]
      have hb : dropLeadingV maj = maj := by
        cases maj with
        | nil => rfl
        | cons c r =>
          exact dropLeadingV_keep r
            ((digit_char_facts (hdig c (List.mem_cons_self c r))).2.2.2.2)
      rw [hb, takeWhile_all hdig, dropWhile_all hdig, if_neg hne]
      rfl
    · simp only [parseSemVerChars, htrim2, dropLeadingV_v]
      rw [takeWhile_all hdig, dropWhile_all hdig, if_neg hne]
      rfl
  · intro seg hne hnd
    constructor
    · intro q hq
      rw [parsePrerelease_single seg hne hnd]
      unfold preIdOfSegment
      rw [hq]
    · intro hq
      rw [parsePrerelease_single seg hne hnd]
      unfold preIdOfSegment
      rw [hq]

/-- Counterexample to the claimed storage rule: the identifier `1e3` does not
parse fully as a plain non-negative integer numeral, yet it is stored as the
number 1000 (JavaScript numeric conversion), not as the string "1e3". -/
theorem parse_grammar_spec_counterexample :
    parseSemVerChars "1.0.0-1e3".data = some ⟨1, 0, 0, [PreId.num (JSNum.fin 1000)]⟩ ∧
    parseSemVerChars "1.0.0-1e3".data ≠ some ⟨1, 0, 0, [PreId.str "1e3".data]⟩ ∧
    ¬(∀ c ∈ "1e3".data, c.isDigit = true) := by
  refine ⟨by decide, by decide, ?_⟩
  intro h
  exact absurd (h 'e' (by decide)) (by decide)

theorem parse_grammar_spec_witness :
    parseSemVerChars "42".data = some ⟨digitsVal "42".data, 0, 0, []⟩ ∧
    parseSemVerChars ('v' :: "42".data) = some ⟨digitsVal "42".data, 0, 0, []⟩ ∧
    parsePrerelease "7".data = [PreId.num (JSNum.fin 7)] :=
  ⟨(parse_grammar_spec.2.2.1 "42".data (by decide) (by decide)).1,
    (parse_grammar_spec.2.2.1 "42".data (by decide) (by decide)).2,
    (parse_grammar_spec.2.2.2 "7".data (by decide) (by decide)).1 (JSNum.fin 7) (by decide)⟩

/-- C9: prerelease identifiers are normalised through JavaScript numeric
conversion, not a digit-only test: every segment whose text converts to a
number is stored as that numeric value — including leading-zero, hexadecimal
and exponent forms — so `1.0.0-01` and `1.0.0-1` parse to equal values and
compare as equal. -/
theorem prerelease_numeric_normalization :
    (∀ (seg : Chars) (q : JSNum), seg ≠ [] → '.' ∉ seg → jsNumber seg = some q →
      parsePrerelease seg = [PreId.num q]) ∧
    parseSemVer "1.0.0-01" = parseSemVer "1.0.0-1" ∧
    parseSemVer "1.0.0-01" = some ⟨1, 0, 0, [PreId.num (JSNum.fin 1)]⟩ ∧
    (∀ a b : SemVer, parseSemVer "1.0.0-01" = some a → parseSemVer "1.0.0-1" = some b →
      compareSemVer a b = 0) ∧
    jsNumber "0x10".data = some (JSNum.fin 16) ∧
    jsNumber "1e3".data = some (JSNum.fin 1000) ∧
    parseSemVer "1.0.0-0x10" = some ⟨1, 0, 0, [PreId.num (JSNum.fin 16)]⟩ := by
  refine ⟨?_, by decide, by decide, ?_, by decide, by decide, by decide⟩
  · intro seg q hne hnd hq
    rw [parsePrerelease_single seg hne hnd]
    unfold preIdOfSegment
    rw [hq]
  · intro a b ha hb
    have hval : parseSemVer "1.0.0-01" = some ⟨1, 0, 0, [PreId.num (JSNum.fin 1)]⟩ := by
      decide
    have hval2 : parseSemVer "1.0.0-1" = some ⟨1, 0, 0, [PreId.num (JSNum.fin 1)]⟩ := by
      decide
    rw [hval] at ha
    rw [hval2] at hb
    rw [← Option.some.inj ha, ← Option.some.inj hb]
    exact compareSemVer_self _

theorem prerelease_numeric_normalization_witness :
    parsePrerelease "01".data = [PreId.num (JSNum.fin 1)] ∧
    compareSemVer ⟨1, 0, 0, [PreId.num (JSNum.fin 1)]⟩
      ⟨1, 0, 0, [PreId.num (JSNum.fin 1)]⟩ = 0 :=
  ⟨prerelease_numeric_normalization.1 "01".data (JSNum.fin 1)
      (by decide) (by decide) (by decide),
    prerelease_numeric_normalization.2.2.2.1 ⟨1, 0, 0, [PreId.num (JSNum.fin 1)]⟩
      ⟨1, 0, 0, [PreId.num (JSNum.fin 1)]⟩ (by decide) (by decide)⟩

end Packlink
